import Mathlib

/-!
Verification of the vuex-persisted-plugin repository.

This file gives a shallow embedding, in Lean 4, of the core of the
repository (src/utils.ts and the reset / normalization logic of
src/persistedPlugin.ts), and proves or refutes the frozen claims about it.

Modelling conventions
 * JavaScript values are modelled by the inductive type `JVal`
   (undefined, null, booleans, numbers, strings, arrays, plain objects).
   Plain objects are association lists in property-insertion order, which
   is the order `Object.keys` reports.  Numbers are modelled by `Int`
   (the claims never involve fractional or NaN arithmetic).
 * The source files are ES modules, hence strict-mode JavaScript: a
   property WRITE whose receiver is a primitive throws a `TypeError`.
   Partial operations therefore return `Option`; `none` models a throw.
   Property reads on primitives never throw and yield `undefined`
   (except string index/length reads, which are modelled faithfully).
 * Mutation is modelled by state passing: `setValueByReference` mutates
   its target in place in JS and returns it; here `setPath` returns the
   updated value.  Two simplifications, both documented at the
   definitions: out-of-range array index writes and non-index ("expando")
   property writes on arrays leave the array unchanged, and the partial
   mutations performed before a throw are discarded (`none` carries no
   partially-updated tree).
 * `deepClone`'s WeakMap cycle guard is keyed by object identity, which a
   pure tree has no notion of; the claims about sharing (C3) are settled
   on a separate labelled-tree model `LVal` where every heap object
   carries an identity.  On identity-free trees `deepClone` is proved to
   be the identity (`deepCloneJ_id`), which is how the plugin model uses
   it.
-/

namespace VP

/-- JavaScript runtime values, as far as the plugin manipulates them:
undefined, null, booleans, numbers, strings, arrays and plain objects.
Plain objects are association lists in property-insertion order. -/
inductive JVal where
  | vUndef : JVal
  | vNull : JVal
  | vBool (b : Bool) : JVal
  | vNum (n : Int) : JVal
  | vStr (s : String) : JVal
  | vArr (elems : List JVal) : JVal
  | vObj (fields : List (String × JVal)) : JVal

open JVal

/-- JavaScript truthiness: false, 0, the empty string, null and undefined
are falsy; every object and array is truthy. -/
def truthy : JVal → Bool
  | vUndef => false
  | vNull => false
  | vBool b => b
  | vNum n => n != 0
  | vStr s => !(s == "")
  | vArr _ => true
  | vObj _ => true

/-- `isPlainObject` from src/utils.ts: true exactly for `[object Object]`
values, i.e. the `vObj` constructor here. -/
def isPlainObject : JVal → Bool
  | vObj _ => true
  | _ => false

/-- `isEmpty` from src/utils.ts, as invoked by `deepMerge` on arbitrary
values: an array is empty iff it has no elements; anything else is
scanned with `for..in`, which yields a key for a non-empty object and for
a non-empty string (index properties), and no key for primitives. -/
def isEmptyJ : JVal → Bool
  | vArr xs => xs.isEmpty
  | vObj kvs => kvs.isEmpty
  | vStr s => s == ""
  | _ => true

/-- First binding of a key in an association list; `Object.keys` order
guarantees at most one binding in any object produced by the engine. -/
def getKey : List (String × JVal) → String → Option JVal
  | [], _ => none
  | (k, v) :: r, q => if k = q then some v else getKey r q

/-- Property assignment on an association list: replaces the first
binding of the key in place (preserving its position, as JS does), or
appends a new binding at the end. -/
def setKey : List (String × JVal) → String → JVal → List (String × JVal)
  | [], q, w => [(q, w)]
  | (k, v) :: r, q, w => if k = q then (k, w) :: r else (k, v) :: setKey r q w

/-- Decimal string keys "0", "1", ... for the elements of an array,
starting at index `i`: the enumerable own keys of a JS array. -/
def arrEntriesFrom (i : Nat) : List JVal → List (String × JVal)
  | [] => []
  | x :: r => (Nat.repr i, x) :: arrEntriesFrom (i + 1) r

/-- Index entries of a string value: `Object.keys "ab" = ["0", "1"]`,
each index holding the one-character string. -/
def strEntriesFrom (i : Nat) : List Char → List (String × JVal)
  | [] => []
  | c :: r => (Nat.repr i, vStr (String.mk [c])) :: strEntriesFrom (i + 1) r

/-- The `(key, value)` pairs `Object.keys obj` exposes: the fields of a
plain object, the indexed elements of an array or a string, and nothing
for primitives. -/
def entriesJ : JVal → List (String × JVal)
  | vObj kvs => kvs
  | vArr xs => arrEntriesFrom 0 xs
  | vStr s => strEntriesFrom 0 s.data
  | _ => []

/-- Core of `deepMerge` from src/utils.ts: folds the entries of one
source object into the accumulated record.  A plain-object value is
merged recursively with the accumulator's existing plain object at that
key (`deepMerge(result[key], val)`) or rebuilt against nothing
(`deepMerge(val)`); every other value overwrites outright.

One shortcut relative to the letter of the source: the recursive call
`deepMerge(result[key], val)` first re-normalizes `result[key]` from an
empty accumulator.  `result[key]` is itself always a previous `deepMerge`
result, and re-normalizing such a record is proved to be the identity
(`mergeEntries_norm_of_nr` together with `nr_mergeEntries`), so the
definition descends into it directly; the bridge is stated as theorem
`mergeEntries_matches_source`. -/
def mergeEntries : List (String × JVal) → List (String × JVal) → List (String × JVal)
  | acc, [] => acc
  | acc, (k, JVal.vObj w) :: rest =>
      let newv : JVal :=
        match getKey acc k with
        | some (JVal.vObj r) => JVal.vObj (mergeEntries r w)
        | _ => JVal.vObj (mergeEntries [] w)
      mergeEntries (setKey acc k newv) rest
  | acc, (k, v) :: rest => mergeEntries (setKey acc k v) rest

/-- One step of the `objects.forEach` loop of `deepMerge`: a source that
`isEmpty` holds of (null, primitives, empty object or array) contributes
nothing; otherwise its enumerable entries are folded in. -/
def mergeVal (acc : List (String × JVal)) (x : JVal) : List (String × JVal) :=
  if isEmptyJ x then acc else mergeEntries acc (entriesJ x)

/-- `deepMerge(...objects)` from src/utils.ts: left-to-right fold of the
arguments into a fresh bare record (`Object.create(null)`). -/
def deepMerge (objs : List JVal) : JVal :=
  vObj (objs.foldl mergeVal [])

/-- Canonical decimal index represented by a string, if any: "7" is the
array index 7, while "07" or "x" are not indices.  Mirrors the canonical
numeric string rule used for JS array indexing. -/
def canonIndex (s : String) : Option Nat :=
  match s.toNat? with
  | some n => if Nat.repr n = s then some n else none
  | none => none

/-- Property read `target[key]`, total: a missing key on an object reads
as undefined, arrays and strings expose indices and `length`, and any
read on a remaining primitive yields undefined.  Reads never throw. -/
def getProp : JVal → String → JVal
  | vObj kvs, k => (getKey kvs k).getD vUndef
  | vArr xs, k =>
      if k = "length" then vNum xs.length
      else
        match canonIndex k with
        | some i => xs.getD i vUndef
        | none => vUndef
  | vStr s, k =>
      if k = "length" then vNum s.length
      else
        match canonIndex k with
        | some i =>
            match s.data.get? i with
            | some c => vStr (String.mk [c])
            | none => vUndef
        | none => vUndef
  | _, _ => vUndef

/-- `String.prototype.split` on the separator ".": accumulates the
current segment and emits it at each dot, including empty segments, so
that "a.b" gives ["a", "b"], "" gives [""], and "a..b" gives
["a", "", "b"].  Defined over the character list so that it computes by
kernel reduction. -/
def splitAux : List Char → List Char → List String
  | [], cur => [String.mk cur.reverse]
  | c :: r, cur =>
      if c = '.' then String.mk cur.reverse :: splitAux r []
      else splitAux r (c :: cur)

/-- Split a dotted path string into its segments, as
`refer.split(".")` does in src/utils.ts. -/
def splitDots (s : String) : List String := splitAux s.data []

/-- `getValueByReference` from src/utils.ts on an already-split path:
`refers.reduce((obj, key) => obj && obj[key], target)`.  A falsy
accumulator is carried through unchanged (that is what `obj && obj[key]`
evaluates to); a truthy one is dereferenced. -/
def getPath (t : JVal) (segs : List String) : JVal :=
  segs.foldl (fun acc k => if truthy acc then getProp acc k else acc) t

/-- `getValueByReference` with a string path: splits on "." first. -/
def getValueByReference (t : JVal) (refer : String) : JVal :=
  getPath t (splitDots refer)

/-- Property write `target[key] = v` in strict mode.  On a plain object
it binds the key; on an array it updates a canonical in-range index and
is modelled as leaving the array unchanged for other keys (JS would
lengthen the array or attach an expando property; the plugin never relies
on either).  On null, undefined and every other primitive the write
throws a `TypeError`, modelled by `none`. -/
def setProp : JVal → String → JVal → Option JVal
  | vObj kvs, k, v => some (vObj (setKey kvs k v))
  | vArr xs, k, v =>
      (match canonIndex k with
        | some i => some (vArr (xs.set i v))
        | none => some (vArr xs))
  | _, _, _ => none

/-- `setValueByReference` from src/utils.ts on an already-split path:
walks all but the last segment with `obj[key] = obj[key] || {}` (an
existing truthy value is kept, a missing or falsy one is replaced by a
fresh empty object) and assigns the value at the final segment.  `none`
models the strict-mode `TypeError` raised when an assignment's receiver
is a primitive. -/
def setPath : JVal → List String → JVal → Option JVal
  | t, [], _ => some t
  | t, [k], v => setProp t k v
  | t, k :: k2 :: rest, v =>
      let cur := getProp t k
      let nxt := if truthy cur then cur else vObj []
      match setPath nxt (k2 :: rest) v with
      | some inner => setProp t k inner
      | none => none

/-- `setValueByReference` with a string path. -/
def setValueByReference (t : JVal) (refer : String) (v : JVal) : Option JVal :=
  setPath t (splitDots refer) v

/-- `reducerState` from src/utils.ts: folds the path list into a fresh
empty accumulator, copying `getValueByReference state path` to the same
path of the accumulator.  `none` models a throw of the underlying
write. -/
def reducerState (state : JVal) (paths : List String) : Option JVal :=
  paths.foldlM
    (fun acc p => setPath acc (splitDots p) (getPath state (splitDots p)))
    (vObj [])

mutual

/-- `deepClone` from src/utils.ts restricted to identity-free trees (the
plugin's own use: `deepClone(store.state)` on JSON-like state).  A pure
tree has no aliasing, so the WeakMap guard never fires and the wrapper /
Map / Set branches have no representative in `JVal`; what remains is the
array / plain-object structural copy over `Object.getOwnPropertyNames`.
Sharing behaviour is modelled separately on `LVal`. -/
def deepCloneJ : JVal → JVal
  | vObj kvs => vObj (cloneEntries kvs)
  | vArr xs => vArr (cloneElems xs)
  | x => x

/-- Clone of the field list of a plain object. -/
def cloneEntries : List (String × JVal) → List (String × JVal)
  | [] => []
  | (k, v) :: r => (k, deepCloneJ v) :: cloneEntries r

/-- Clone of the element list of an array. -/
def cloneElems : List JVal → List JVal
  | [] => []
  | v :: r => deepCloneJ v :: cloneElems r

end

end VP

namespace VP

open JVal

/-! ### Decimal array-index keys

`Nat.repr` produces the decimal key strings "0", "1", ... under which
`deepMerge` spreads array elements.  The claims about those keys need
injectivity of `Nat.repr`, proved here by evaluating the digit string
back to the number. -/

/-- Numeric value of a decimal digit character. -/
def decDigit (c : Char) : Nat := c.toNat - 48

/-- Value of a decimal digit string, most significant digit first. -/
def chVal (cs : List Char) : Nat := cs.foldl (fun a c => a * 10 + decDigit c) 0

theorem toDigitsCore_shift (fuel : Nat) :
    ∀ (n : Nat) (ds : List Char),
      Nat.toDigitsCore 10 fuel n ds = Nat.toDigitsCore 10 fuel n [] ++ ds := by
  induction fuel with
  | zero => intro n ds; simp [Nat.toDigitsCore]
  | succ f ih =>
    intro n ds
    simp only [Nat.toDigitsCore]
    by_cases h : n / 10 = 0
    · simp [h]
    · simp only [h, if_false]
      rw [ih (n / 10) (Nat.digitChar (n % 10) :: ds),
        ih (n / 10) [Nat.digitChar (n % 10)]]
      simp

theorem toDigitsCore_fuel :
    ∀ (n f1 f2 : Nat), n < f1 → n < f2 →
      Nat.toDigitsCore 10 f1 n [] = Nat.toDigitsCore 10 f2 n [] := by
  intro n
  induction n using Nat.strong_induction_on with
  | _ n ih =>
    intro f1 f2 h1 h2
    match f1, f2 with
    | f1 + 1, f2 + 1 =>
      simp only [Nat.toDigitsCore]
      by_cases h : n / 10 = 0
      · simp [h]
      · simp only [h, if_false]
        rw [toDigitsCore_shift, toDigitsCore_shift f2]
        have hn0 : 0 < n := by
          rcases Nat.eq_zero_or_pos n with h0 | h0
          · exact absurd (by simp [h0]) h
          · exact h0
        have hlt : n / 10 < n := Nat.div_lt_self hn0 (by norm_num)
        rw [ih (n / 10) hlt f1 f2 (by omega) (by omega)]

theorem toDigits_step (n : Nat) :
    Nat.toDigits 10 n =
      if n < 10 then [Nat.digitChar n]
      else Nat.toDigits 10 (n / 10) ++ [Nat.digitChar (n % 10)] := by
  conv_lhs => simp only [Nat.toDigits, Nat.toDigitsCore]
  by_cases h : n / 10 = 0
  · have hn : n < 10 := by omega
    simp [h, hn, Nat.mod_eq_of_lt hn]
  · have hn : ¬ n < 10 := by omega
    simp only [h, if_false, hn]
    rw [toDigitsCore_shift]
    have hlt : n / 10 < n := by omega
    have hfuel := toDigitsCore_fuel (n / 10) n (n / 10 + 1) hlt (Nat.lt_succ_self _)
    simp only [Nat.toDigits]
    rw [hfuel]

theorem chVal_append (xs : List Char) (c : Char) :
    chVal (xs ++ [c]) = chVal xs * 10 + decDigit c := by
  simp [chVal, List.foldl_append]

theorem decDigit_digitChar (d : Nat) (h : d < 10) :
    decDigit (Nat.digitChar d) = d := by
  interval_cases d <;> rfl

theorem chVal_toDigits (n : Nat) : chVal (Nat.toDigits 10 n) = n := by
  induction n using Nat.strong_induction_on with
  | _ n ih =>
    rw [toDigits_step]
    by_cases h : n < 10
    · simp [h, chVal, decDigit_digitChar n h]
    · have hn0 : 0 < n := by omega
      simp only [h, if_false]
      rw [chVal_append, ih (n / 10) (Nat.div_lt_self hn0 (by norm_num)),
        decDigit_digitChar _ (Nat.mod_lt _ (by norm_num))]
      omega

/-- `Nat.repr` is injective: distinct indices give distinct key
strings. -/
theorem reprNat_inj {m n : Nat} (h : Nat.repr m = Nat.repr n) : m = n := by
  have hd : Nat.toDigits 10 m = Nat.toDigits 10 n := by
    have hdata := congrArg String.data h
    simpa [Nat.repr, List.asString] using hdata
  calc m = chVal (Nat.toDigits 10 m) := (chVal_toDigits m).symm
    _ = chVal (Nat.toDigits 10 n) := by rw [hd]
    _ = n := chVal_toDigits n

/-! ### Wellformed values and normalized records

A value reachable in a JS engine never has two bindings of the same key
in one object; `wfJ` captures that (recursively, inside arrays too).
`nrE` describes the records `deepMerge` produces: unique keys and every
plain-object value again such a record. -/

/-- Does the association list bind the key? -/
def hasKey : List (String × JVal) → String → Bool
  | [], _ => false
  | (k, _) :: r, q => k == q || hasKey r q

/-- Unique keys in one association list. -/
def nodupKeys : List (String × JVal) → Bool
  | [] => true
  | (k, _) :: r => !(hasKey r k) && nodupKeys r

mutual

/-- Wellformed JS value: every object, at every depth (inside arrays as
well), binds each key at most once.  Every value a JS engine builds is
wellformed; the constraint only excludes meaningless `JVal` terms. -/
def wfJ : JVal → Bool
  | vObj kvs => nodupKeys kvs && wfEntries kvs
  | vArr xs => wfElems xs
  | _ => true

/-- Wellformedness of an object's field list. -/
def wfEntries : List (String × JVal) → Bool
  | [] => true
  | (_, v) :: r => wfJ v && wfEntries r

/-- Wellformedness of an array's element list. -/
def wfElems : List JVal → Bool
  | [] => true
  | v :: r => wfJ v && wfElems r

end

mutual

/-- Normalized-record condition on a value: plain objects are normalized
records, everything else is unconstrained. -/
def nrJ : JVal → Bool
  | vObj kvs => nrE kvs
  | _ => true

/-- Normalized record, the shape `deepMerge` outputs: unique keys and
normalized plain-object values.  (Array contents are untouched by
`deepMerge` and hence unconstrained.) -/
def nrE : List (String × JVal) → Bool
  | [] => true
  | (k, v) :: r => !(hasKey r k) && nrJ v && nrE r

end

/-! ### Association-list lemmas -/

theorem getKey_isSome_iff_hasKey (l : List (String × JVal)) (k : String) :
    (getKey l k).isSome = hasKey l k := by
  induction l with
  | nil => rfl
  | cons p r ih =>
    obtain ⟨k0, v0⟩ := p
    by_cases h : k0 = k <;> simp [getKey, hasKey, h, ih]

theorem getKey_eq_none_of_not_hasKey {l : List (String × JVal)} {k : String}
    (h : hasKey l k = false) : getKey l k = none := by
  have := getKey_isSome_iff_hasKey l k
  rw [h] at this
  exact Option.not_isSome_iff_eq_none.mp (by simp [this])

theorem getKey_setKey_self (l : List (String × JVal)) (k : String) (v : JVal) :
    getKey (setKey l k v) k = some v := by
  induction l with
  | nil => simp [setKey, getKey]
  | cons p r ih =>
    obtain ⟨k0, v0⟩ := p
    by_cases h : k0 = k <;> simp [setKey, getKey, h, ih]

theorem getKey_setKey_other (l : List (String × JVal)) {k q : String} (v : JVal)
    (h : q ≠ k) : getKey (setKey l k v) q = getKey l q := by
  have hk : k ≠ q := Ne.symm h
  induction l with
  | nil => simp [setKey, getKey, hk]
  | cons p r ih =>
    obtain ⟨k0, v0⟩ := p
    by_cases h0 : k0 = k
    · subst h0
      simp [setKey, getKey, hk]
    · by_cases h1 : k0 = q <;> simp [setKey, getKey, h0, h1, ih, hk, h]

theorem setKey_same {l : List (String × JVal)} {k : String} {v : JVal}
    (h : getKey l k = some v) : setKey l k v = l := by
  induction l with
  | nil => simp [getKey] at h
  | cons p r ih =>
    obtain ⟨k0, v0⟩ := p
    by_cases h0 : k0 = k
    · subst h0
      rw [getKey] at h
      simp only [if_true, eq_self_iff_true, if_pos, Option.some.injEq] at h
      subst h
      simp [setKey]
    · simp only [getKey, if_neg h0] at h
      simp [setKey, h0, ih h]

theorem hasKey_setKey (l : List (String × JVal)) (k q : String) (v : JVal) :
    hasKey (setKey l k v) q = (hasKey l q || q == k) := by
  induction l with
  | nil =>
    simp only [setKey, hasKey, Bool.or_false, Bool.false_or]
    by_cases h : k = q
    · subst h; simp
    · simp [h, Ne.symm h]
  | cons p r ih =>
    obtain ⟨k0, v0⟩ := p
    by_cases h0 : k0 = k
    · subst h0
      by_cases h1 : k0 = q
      · subst h1; simp [setKey, hasKey]
      · simp [setKey, hasKey, h1, Ne.symm h1]
    · simp only [setKey, if_neg h0, hasKey, ih]
      cases h2 : (k0 == q) <;> simp

theorem fst_setKey_of_hasKey {l : List (String × JVal)} {k : String} (v : JVal)
    (h : hasKey l k = true) : (setKey l k v).map Prod.fst = l.map Prod.fst := by
  induction l with
  | nil => simp [hasKey] at h
  | cons p r ih =>
    obtain ⟨k0, v0⟩ := p
    by_cases h0 : k0 = k
    · simp [setKey, h0]
    · simp only [hasKey] at h
      have hk : hasKey r k = true := by
        rcases Bool.or_eq_true_iff.mp h with h1 | h1
        · exact absurd (by simpa using h1) h0
        · exact h1
      simp [setKey, h0, ih hk]

theorem fst_setKey_of_not_hasKey {l : List (String × JVal)} {k : String} (v : JVal)
    (h : hasKey l k = false) :
    (setKey l k v).map Prod.fst = l.map Prod.fst ++ [k] := by
  induction l with
  | nil => simp [setKey]
  | cons p r ih =>
    obtain ⟨k0, v0⟩ := p
    simp only [hasKey, Bool.or_eq_false_iff] at h
    have h0 : k0 ≠ k := by
      intro hc
      rw [hc] at h
      simp at h
    simp [setKey, h0, ih h.2]

end VP

namespace VP

open JVal

/-! ### Merge algebra -/

/-- The value `deepMerge` stores for one source entry, given the
accumulator's current binding of that key: plain objects merge with an
existing plain object or are rebuilt from nothing, anything else
overwrites. -/
def mergeStepVal (old : Option JVal) : JVal → JVal
  | vObj w =>
      match old with
      | some (vObj r) => vObj (mergeEntries r w)
      | _ => vObj (mergeEntries [] w)
  | v => v

theorem mergeEntries_cons (acc : List (String × JVal)) (k : String) (v : JVal)
    (rest : List (String × JVal)) :
    mergeEntries acc ((k, v) :: rest) =
      mergeEntries (setKey acc k (mergeStepVal (getKey acc k) v)) rest := by
  cases v <;> simp [mergeEntries, mergeStepVal]

theorem hasKey_append (a b : List (String × JVal)) (q : String) :
    hasKey (a ++ b) q = (hasKey a q || hasKey b q) := by
  induction a with
  | nil => simp [hasKey]
  | cons p r ih =>
    obtain ⟨k0, v0⟩ := p
    simp [hasKey, ih, Bool.or_assoc]

theorem hasKey_false_forall {l : List (String × JVal)} {q : String}
    (h : hasKey l q = false) : ∀ p ∈ l, p.1 ≠ q := by
  induction l with
  | nil => intro p hp; simp at hp
  | cons hd r ih =>
    obtain ⟨k0, v0⟩ := hd
    simp only [hasKey, Bool.or_eq_false_iff] at h
    intro p hp
    rcases List.mem_cons.mp hp with h1 | h1
    · subst h1
      have hne : k0 ≠ q := by simpa using h.1
      exact hne
    · exact ih h.2 p h1

theorem getKey_append_right (pre acc : List (String × JVal)) {k : String}
    (h : hasKey pre k = false) : getKey (pre ++ acc) k = getKey acc k := by
  induction pre with
  | nil => simp
  | cons p r ih =>
    obtain ⟨k0, v0⟩ := p
    simp only [hasKey, Bool.or_eq_false_iff] at h
    have h0 : k0 ≠ k := by
      intro hc; rw [hc] at h; simp at h
    simp [getKey, h0, ih h.2]

theorem setKey_append_right (pre acc : List (String × JVal)) {k : String} (v : JVal)
    (h : hasKey pre k = false) : setKey (pre ++ acc) k v = pre ++ setKey acc k v := by
  induction pre with
  | nil => simp
  | cons p r ih =>
    obtain ⟨k0, v0⟩ := p
    simp only [hasKey, Bool.or_eq_false_iff] at h
    have h0 : k0 ≠ k := by
      intro hc; rw [hc] at h; simp at h
    simp [setKey, h0, ih h.2]

theorem getKey_mergeEntries_untouched (es : List (String × JVal)) :
    ∀ (acc : List (String × JVal)) (k : String), hasKey es k = false →
      getKey (mergeEntries acc es) k = getKey acc k := by
  induction es with
  | nil => intro acc k _; simp [mergeEntries]
  | cons hd rest ih =>
    obtain ⟨k0, v0⟩ := hd
    intro acc k h
    simp only [hasKey, Bool.or_eq_false_iff] at h
    have h0 : k0 ≠ k := by
      intro hc; rw [hc] at h; simp at h
    rw [mergeEntries_cons, ih _ k h.2, getKey_setKey_other _ _ (Ne.symm h0)]

theorem mergeEntries_fst (es : List (String × JVal)) :
    ∀ acc : List (String × JVal), ∃ d,
      (mergeEntries acc es).map Prod.fst = acc.map Prod.fst ++ d := by
  induction es with
  | nil => intro acc; exact ⟨[], by simp [mergeEntries]⟩
  | cons hd rest ih =>
    obtain ⟨k0, v0⟩ := hd
    intro acc
    rw [mergeEntries_cons]
    obtain ⟨d, hd⟩ := ih (setKey acc k0 (mergeStepVal (getKey acc k0) v0))
    by_cases hk : hasKey acc k0 = true
    · exact ⟨d, by rw [hd, fst_setKey_of_hasKey _ hk]⟩
    · refine ⟨[k0] ++ d, ?_⟩
      rw [hd, fst_setKey_of_not_hasKey _ (by simpa using hk)]
      simp

theorem getKey_mergeEntries_mem (es : List (String × JVal)) :
    ∀ (acc : List (String × JVal)) (k : String) (v : JVal),
      nodupKeys es = true → getKey es k = some v →
      getKey (mergeEntries acc es) k = some (mergeStepVal (getKey acc k) v) := by
  induction es with
  | nil => intro acc k v _ hm; simp [getKey] at hm
  | cons hd rest ih =>
    obtain ⟨k0, v0⟩ := hd
    intro acc k v hnd hm
    simp only [nodupKeys, Bool.and_eq_true, Bool.not_eq_true'] at hnd
    rw [mergeEntries_cons]
    by_cases h0 : k0 = k
    · subst h0
      rw [getKey] at hm
      simp only [if_true, eq_self_iff_true, if_pos, Option.some.injEq] at hm
      subst hm
      rw [getKey_mergeEntries_untouched _ _ _ hnd.1, getKey_setKey_self]
    · simp only [getKey, if_neg h0] at hm
      rw [ih _ k v hnd.2 hm, getKey_setKey_other _ _ (Ne.symm h0)]

/-! ### Normalized records are stable -/

theorem nrJ_getKey {acc : List (String × JVal)} {k : String} {v : JVal}
    (h : nrE acc = true) (hg : getKey acc k = some v) : nrJ v = true := by
  induction acc with
  | nil => simp [getKey] at hg
  | cons p r ih =>
    obtain ⟨k0, v0⟩ := p
    simp only [nrE, Bool.and_eq_true] at h
    by_cases h0 : k0 = k
    · simp only [getKey, if_pos h0, Option.some.injEq] at hg
      subst hg
      exact h.1.2
    · simp only [getKey, if_neg h0] at hg
      exact ih h.2 hg

theorem wfJ_getKey {kvs : List (String × JVal)} {k : String} {v : JVal}
    (h : wfEntries kvs = true) (hg : getKey kvs k = some v) : wfJ v = true := by
  induction kvs with
  | nil => simp [getKey] at hg
  | cons p r ih =>
    obtain ⟨k0, v0⟩ := p
    simp only [wfEntries, Bool.and_eq_true] at h
    by_cases h0 : k0 = k
    · simp only [getKey, if_pos h0, Option.some.injEq] at hg
      subst hg
      exact h.1
    · simp only [getKey, if_neg h0] at hg
      exact ih h.2 hg

theorem setKey_nr {acc : List (String × JVal)} {k : String} {v : JVal}
    (h : nrE acc = true) (hv : nrJ v = true) : nrE (setKey acc k v) = true := by
  induction acc with
  | nil => simp [setKey, nrE, hasKey, hv]
  | cons p r ih =>
    obtain ⟨k0, v0⟩ := p
    simp only [nrE, Bool.and_eq_true, Bool.not_eq_true'] at h
    by_cases h0 : k0 = k
    · subst h0
      simp [setKey, nrE, h.1.1, hv, h.2, Bool.not_eq_true']
    · simp only [setKey, if_neg h0, nrE, Bool.and_eq_true, Bool.not_eq_true']
      refine ⟨⟨?_, h.1.2⟩, ih h.2⟩
      rw [hasKey_setKey]
      simp only [h.1.1, Bool.false_or]
      simp [fun hc : k0 = k => h0 hc, Ne.symm h0]

theorem nr_mergeEntries :
    ∀ (es acc : List (String × JVal)), nrE acc = true →
      nrE (mergeEntries acc es) = true
  | [], acc, h => by simpa [mergeEntries]
  | (k0, v0) :: rest, acc, h => by
    rw [mergeEntries_cons]
    refine nr_mergeEntries rest _ (setKey_nr h ?_)
    cases v0 with
    | vObj w =>
      cases hg : getKey acc k0 with
      | none =>
        simp only [mergeStepVal, hg, nrJ]
        exact nr_mergeEntries w [] rfl
      | some u =>
        cases u with
        | vObj r =>
          have hr : nrE r = true := by
            have := nrJ_getKey h hg
            simpa [nrJ] using this
          simp only [mergeStepVal, hg, nrJ]
          exact nr_mergeEntries w r hr
        | vUndef => simp only [mergeStepVal, hg, nrJ]; exact nr_mergeEntries w [] rfl
        | vNull => simp only [mergeStepVal, hg, nrJ]; exact nr_mergeEntries w [] rfl
        | vBool b => simp only [mergeStepVal, hg, nrJ]; exact nr_mergeEntries w [] rfl
        | vNum n => simp only [mergeStepVal, hg, nrJ]; exact nr_mergeEntries w [] rfl
        | vStr s => simp only [mergeStepVal, hg, nrJ]; exact nr_mergeEntries w [] rfl
        | vArr xs => simp only [mergeStepVal, hg, nrJ]; exact nr_mergeEntries w [] rfl
    | vUndef => rfl
    | vNull => rfl
    | vBool b => rfl
    | vNum n => rfl
    | vStr s => rfl
    | vArr xs => rfl
termination_by es _ _ => sizeOf es

end VP

namespace VP

open JVal

theorem mergeEntries_app_left (es : List (String × JVal)) :
    ∀ (pre acc : List (String × JVal)), (∀ p ∈ es, hasKey pre p.1 = false) →
      mergeEntries (pre ++ acc) es = pre ++ mergeEntries acc es := by
  induction es with
  | nil => intro pre acc _; simp [mergeEntries]
  | cons hd rest ih =>
    obtain ⟨k0, v0⟩ := hd
    intro pre acc h
    have hk0 : hasKey pre k0 = false := h (k0, v0) (List.mem_cons_self _ _)
    rw [mergeEntries_cons, getKey_append_right _ _ hk0,
      setKey_append_right _ _ _ hk0, mergeEntries_cons]
    exact ih pre _ (fun p hp => h p (List.mem_cons_of_mem _ hp))

/-- Re-normalizing a normalized record is the identity: this is the
`deepMerge(result[key], ...)` renormalization step of the source acting
on an accumulator value, which is always already a merge result. -/
theorem mergeEntries_norm_of_nr :
    ∀ r : List (String × JVal), nrE r = true → mergeEntries [] r = r
  | [], _ => by simp [mergeEntries]
  | (k, v) :: rest, h => by
    simp only [nrE, Bool.and_eq_true, Bool.not_eq_true'] at h
    rw [mergeEntries_cons]
    have hstep : mergeStepVal (getKey ([] : List (String × JVal)) k) v = v := by
      cases v with
      | vObj w =>
        simp only [mergeStepVal, getKey]
        rw [mergeEntries_norm_of_nr w (by simpa [nrJ] using h.1.2)]
      | vUndef => rfl
      | vNull => rfl
      | vBool b => rfl
      | vNum n => rfl
      | vStr s => rfl
      | vArr xs => rfl
    rw [hstep]
    show mergeEntries ([(k, v)] ++ []) rest = (k, v) :: rest
    rw [mergeEntries_app_left rest [(k, v)] []]
    · rw [mergeEntries_norm_of_nr rest h.2]
      simp
    · intro p hp
      have := hasKey_false_forall h.1.1 p hp
      simp [hasKey, this]
      intro hc
      exact absurd hc.symm this
termination_by r _ => sizeOf r

/-! ### The extension relation

`extE A C` says that the record `C` extends the record `A` in the sense
produced by merging further sources into `A`: `C` starts with `A`'s keys
in `A`'s order (arbitrary further keys may follow), and wherever both
hold a plain object at a shared key the inner records are again in the
relation.  Merging `C` into `A` then reproduces exactly `C`
(`mergeEntries_of_ext`), and `C := mergeEntries A es` is always such an
extension (`ext_mergeEntries`). -/

mutual

/-- Pointwise extension condition at one shared key: only constrains the
case where the new value is a plain object and the old one is too. -/
def extV : JVal → JVal → Bool
  | va, vObj ce =>
      match va with
      | vObj ae => extE ae ce
      | _ => true
  | _, _ => true

/-- `C` extends `A`: `A`'s entries align with a prefix of `C`. -/
def extE : List (String × JVal) → List (String × JVal) → Bool
  | [], _ => true
  | _ :: _, [] => false
  | (ka, va) :: ra, (kc, vc) :: rc => ka == kc && extV va vc && extE ra rc

end

theorem ext_refl : ∀ A : List (String × JVal), nrE A = true → extE A A = true
  | [], _ => rfl
  | (k, v) :: r, h => by
    simp only [nrE, Bool.and_eq_true, Bool.not_eq_true'] at h
    simp only [extE, Bool.and_eq_true, beq_self_eq_true, true_and]
    refine ⟨?_, ext_refl r h.2⟩
    cases v with
    | vObj w => simpa [extV] using ext_refl w (by simpa [nrJ] using h.1.2)
    | vUndef => rfl
    | vNull => rfl
    | vBool b => rfl
    | vNum n => rfl
    | vStr s => rfl
    | vArr xs => rfl
termination_by A _ => sizeOf A

theorem mergeEntries_of_ext_aux :
    ∀ (C2 A2 pre : List (String × JVal)),
      nrE A2 = true → nrE C2 = true → extE A2 C2 = true →
      (∀ p ∈ C2, hasKey pre p.1 = false) →
      mergeEntries (pre ++ A2) C2 = pre ++ C2
  | [], A2, pre, _, _, hext, _ => by
    cases A2 with
    | nil => simp [mergeEntries]
    | cons a ra => obtain ⟨ka, va⟩ := a; simp [extE] at hext
  | (kc, vc) :: rc, A2, pre, hA, hC, hext, hdisj => by
    simp only [nrE, Bool.and_eq_true, Bool.not_eq_true'] at hC
    cases A2 with
    | nil =>
      rw [List.append_nil]
      have h2 : mergeEntries ([] : List (String × JVal)) ((kc, vc) :: rc) = (kc, vc) :: rc :=
        mergeEntries_norm_of_nr _ (by simp [nrE, hC.1.1, hC.1.2, hC.2])
      have h3 := mergeEntries_app_left ((kc, vc) :: rc) pre [] hdisj
      rw [List.append_nil] at h3
      rw [h3, h2]
    | cons a ra =>
      obtain ⟨ka, va⟩ := a
      simp only [extE, Bool.and_eq_true, beq_iff_eq] at hext
      obtain ⟨⟨hkk, hv⟩, hrest⟩ := hext
      have hkk' : kc = ka := hkk.symm
      subst hkk'
      simp only [nrE, Bool.and_eq_true, Bool.not_eq_true'] at hA
      have hkc : hasKey pre kc = false := hdisj (kc, vc) (List.mem_cons_self _ _)
      rw [mergeEntries_cons, getKey_append_right _ _ hkc]
      have hget : getKey ((kc, va) :: ra) kc = some va := by simp [getKey]
      rw [hget]
      have hstep : mergeStepVal (some va) vc = vc := by
        cases vc with
        | vObj w =>
          cases va with
          | vObj ae =>
            simp only [mergeStepVal]
            have hin := mergeEntries_of_ext_aux w ae []
              (by simpa [nrJ] using hA.1.2) (by simpa [nrJ] using hC.1.2)
              (by simpa [extV] using hv) (by intro p _; simp [hasKey])
            simpa using congrArg vObj hin
          | vUndef =>
              simp only [mergeStepVal]
              rw [mergeEntries_norm_of_nr w (by simpa [nrJ] using hC.1.2)]
          | vNull =>
              simp only [mergeStepVal]
              rw [mergeEntries_norm_of_nr w (by simpa [nrJ] using hC.1.2)]
          | vBool b =>
              simp only [mergeStepVal]
              rw [mergeEntries_norm_of_nr w (by simpa [nrJ] using hC.1.2)]
          | vNum n =>
              simp only [mergeStepVal]
              rw [mergeEntries_norm_of_nr w (by simpa [nrJ] using hC.1.2)]
          | vStr s =>
              simp only [mergeStepVal]
              rw [mergeEntries_norm_of_nr w (by simpa [nrJ] using hC.1.2)]
          | vArr xs =>
              simp only [mergeStepVal]
              rw [mergeEntries_norm_of_nr w (by simpa [nrJ] using hC.1.2)]
        | vUndef => rfl
        | vNull => rfl
        | vBool b => rfl
        | vNum n => rfl
        | vStr s => rfl
        | vArr xs => rfl
      rw [hstep, setKey_append_right _ _ _ hkc]
      have hsk : setKey ((kc, va) :: ra) kc vc = (kc, vc) :: ra := by simp [setKey]
      rw [hsk]
      have hre : pre ++ (kc, vc) :: ra = (pre ++ [(kc, vc)]) ++ ra := by simp
      rw [hre, mergeEntries_of_ext_aux rc ra (pre ++ [(kc, vc)]) hA.2 hC.2 hrest ?_]
      · simp
      · intro p hp
        rw [hasKey_append]
        have h1 : hasKey pre p.1 = false := hdisj p (List.mem_cons_of_mem _ hp)
        have h2 : p.1 ≠ kc := hasKey_false_forall hC.1.1 p hp
        simp [h1, hasKey, h2]
        intro hc
        exact absurd hc.symm h2
termination_by C2 _ _ _ _ _ _ => sizeOf C2

/-- Merging an extension of `A` into `A` reproduces the extension. -/
theorem mergeEntries_of_ext (A C : List (String × JVal))
    (hA : nrE A = true) (hC : nrE C = true) (hext : extE A C = true) :
    mergeEntries A C = C := by
  have := mergeEntries_of_ext_aux C A [] hA hC hext (by intro p _; simp [hasKey])
  simpa using this

end VP

namespace VP

open JVal

theorem extE_setKey :
    ∀ (A acc : List (String × JVal)) (k : String) (w : JVal),
      extE A acc = true →
      (∀ va, getKey A k = some va → extV va w = true) →
      extE A (setKey acc k w) = true
  | [], _, _, _, _, _ => rfl
  | (ka, va) :: ra, acc, k, w, h, hpt => by
    cases acc with
    | nil => simp [extE] at h
    | cons c rc =>
      obtain ⟨kc, vc⟩ := c
      simp only [extE, Bool.and_eq_true, beq_iff_eq] at h
      obtain ⟨⟨hkk, hv⟩, hrest⟩ := h
      have hkk' : kc = ka := hkk.symm
      subst hkk'
      by_cases hk : kc = k
      · subst hk
        simp only [setKey, if_pos rfl]
        simp only [extE, Bool.and_eq_true, beq_self_eq_true, true_and]
        exact ⟨hpt va (by simp [getKey]), hrest⟩
      · simp only [setKey, if_neg hk]
        simp only [extE, Bool.and_eq_true, beq_self_eq_true, true_and]
        refine ⟨hv, extE_setKey ra rc k w hrest ?_⟩
        intro u hu
        exact hpt u (by simp [getKey, hk, hu])

theorem ext_mergeEntries_aux :
    ∀ (es A acc : List (String × JVal)),
      nrE A = true → extE A acc = true →
      nodupKeys es = true → wfEntries es = true →
      (∀ p ∈ es, getKey acc p.1 = getKey A p.1) →
      extE A (mergeEntries acc es) = true
  | [], _, acc, _, hext, _, _, _ => by simpa [mergeEntries] using hext
  | (k, v) :: rest, A, acc, hA, hext, hnd, hwf, hget => by
    simp only [nodupKeys, Bool.and_eq_true, Bool.not_eq_true'] at hnd
    simp only [wfEntries, Bool.and_eq_true] at hwf
    rw [mergeEntries_cons]
    have hgk : getKey acc k = getKey A k := hget (k, v) (List.mem_cons_self _ _)
    refine ext_mergeEntries_aux rest A _ hA ?_ hnd.2 hwf.2 ?_
    · refine extE_setKey A acc k _ hext ?_
      intro va hva
      rw [hgk, hva]
      cases v with
      | vObj w =>
        cases va with
        | vObj ae =>
          simp only [mergeStepVal, extV]
          refine ext_mergeEntries_aux w ae ae ?_ (ext_refl ae ?_) ?_ ?_ ?_
          · simpa [nrJ] using nrJ_getKey (by exact hA) hva
          · simpa [nrJ] using nrJ_getKey (by exact hA) hva
          · simpa [wfJ] using And.left (by simpa [wfJ, Bool.and_eq_true] using hwf.1 :
              nodupKeys w = true ∧ wfEntries w = true)
          · exact And.right (by simpa [wfJ, Bool.and_eq_true] using hwf.1 :
              nodupKeys w = true ∧ wfEntries w = true)
          · intro p _; rfl
        | vUndef => rfl
        | vNull => rfl
        | vBool b => rfl
        | vNum n => rfl
        | vStr s => rfl
        | vArr xs => rfl
      | vUndef => cases va <;> rfl
      | vNull => cases va <;> rfl
      | vBool b => cases va <;> rfl
      | vNum n => cases va <;> rfl
      | vStr s => cases va <;> rfl
      | vArr xs => cases va <;> rfl
    · intro p hp
      have hpk : p.1 ≠ k := hasKey_false_forall hnd.1 p hp
      rw [getKey_setKey_other _ _ hpk]
      exact hget p (List.mem_cons_of_mem _ hp)
termination_by es _ _ _ _ _ _ _ => sizeOf es

/-- `mergeEntries A es` always extends `A` (for duplicate-free,
wellformed source entries). -/
theorem ext_mergeEntries (es A : List (String × JVal))
    (hA : nrE A = true) (hnd : nodupKeys es = true) (hwf : wfEntries es = true) :
    extE A (mergeEntries A es) = true :=
  ext_mergeEntries_aux es A A hA (ext_refl A hA) hnd hwf (fun _ _ => rfl)

theorem nrE_mergeVal (acc : List (String × JVal)) (x : JVal)
    (h : nrE acc = true) : nrE (mergeVal acc x) = true := by
  unfold mergeVal
  by_cases he : isEmptyJ x = true
  · simpa [he]
  · simp only [he, if_false]
    exact nr_mergeEntries _ _ h

theorem mergeEntries_nil_of_fst_nil {acc es : List (String × JVal)}
    (h : mergeEntries acc es = []) : acc = [] := by
  obtain ⟨d, hd⟩ := mergeEntries_fst es acc
  rw [h] at hd
  have : acc.map Prod.fst = [] := by
    cases hmap : acc.map Prod.fst with
    | nil => rfl
    | cons a r => rw [hmap] at hd; simp at hd
  cases acc with
  | nil => rfl
  | cons p r => simp at this

/-- Absorption: merging a source `a` into one of its own merge results
changes nothing: `deepMerge(a, deepMerge(a, r)) = deepMerge(a, r)` for a
wellformed plain object `r` and arbitrary `a`.  This is what collapses
the orchestrator's `deepMerge(state, mutationMergeState)` onto
`mutationMergeState`. -/
theorem deepMerge_absorb (a : JVal) (rk : List (String × JVal))
    (hnd : nodupKeys rk = true) (hwf : wfEntries rk = true) :
    deepMerge [a, deepMerge [a, vObj rk]] = deepMerge [a, vObj rk] := by
  have hA : nrE (mergeVal [] a) = true := nrE_mergeVal [] a rfl
  show vObj (mergeVal (mergeVal [] a) (vObj (mergeVal (mergeVal [] a) (vObj rk)))) =
    vObj (mergeVal (mergeVal [] a) (vObj rk))
  set A := mergeVal [] a with hAdef
  by_cases hrk : rk = []
  · subst hrk
    show vObj (mergeVal A (vObj A)) = vObj A
    unfold mergeVal
    simp only [isEmptyJ, entriesJ]
    by_cases hAe : A = []
    · simp [hAe]
    · have : A.isEmpty = false := by
        cases hA2 : A with
        | nil => exact absurd hA2 hAe
        | cons p r => rfl
      simp only [this, Bool.false_eq_true, if_false, if_neg]
      rw [mergeEntries_of_ext A A hA hA (ext_refl A hA)]
  · have hM : mergeVal A (vObj rk) = mergeEntries A rk := by
      unfold mergeVal
      have : rk.isEmpty = false := by
        cases rk with
        | nil => exact absurd rfl hrk
        | cons p r => rfl
      simp [isEmptyJ, entriesJ, this]
    rw [hM]
    set M := mergeEntries A rk with hMdef
    have hnrM : nrE M = true := nr_mergeEntries rk A hA
    by_cases hMe : M = []
    · have hAe : A = [] := mergeEntries_nil_of_fst_nil (hMdef ▸ hMe)
      show vObj (mergeVal A (vObj M)) = vObj M
      rw [hMe, hAe]
      rfl
    · show vObj (mergeVal A (vObj M)) = vObj M
      unfold mergeVal
      have : M.isEmpty = false := by
        cases hM2 : M with
        | nil => exact absurd hM2 hMe
        | cons p r => rfl
      simp only [isEmptyJ, entriesJ, this, Bool.false_eq_true, if_false, if_neg]
      rw [mergeEntries_of_ext A M hA hnrM (hMdef ▸ ext_mergeEntries rk A hA hnd hwf)]

/-- Bridge to the letter of the source: one `deepMerge` loop step on a
plain-object value equals the literal
`result[key] = isPlainObject(result[key]) ? deepMerge(result[key], val)
: deepMerge(val)` (whose inner `deepMerge` re-normalizes `result[key]`
first), provided the accumulator is a normalized record, which every
reachable accumulator is. -/
theorem mergeEntries_matches_source (acc : List (String × JVal)) (k : String)
    (w rest : List (String × JVal)) (h : nrE acc = true) :
    mergeEntries acc ((k, vObj w) :: rest) =
      mergeEntries
        (setKey acc k
          (vObj
            (match getKey acc k with
             | some (vObj r) => mergeVal (mergeVal [] (vObj r)) (vObj w)
             | _ => mergeVal [] (vObj w))))
        rest := by
  rw [mergeEntries_cons]
  congr 2
  cases hg : getKey acc k with
  | none =>
    simp only [mergeStepVal]
    congr 1
    unfold mergeVal
    cases w with
    | nil => simp [isEmptyJ, mergeEntries]
    | cons p r => simp [isEmptyJ, entriesJ]
  | some u =>
    have hnru : nrJ u = true := nrJ_getKey h hg
    cases u with
    | vObj r =>
      simp only [mergeStepVal]
      congr 1
      have hnorm : mergeVal [] (vObj r) = r := by
        unfold mergeVal
        cases r with
        | nil => simp [isEmptyJ, mergeEntries]
        | cons p rr =>
          simp only [isEmptyJ, entriesJ, List.isEmpty_cons, Bool.false_eq_true, if_false,
            if_neg]
          exact mergeEntries_norm_of_nr _ (by simpa [nrJ] using hnru)
      rw [hnorm]
      unfold mergeVal
      cases w with
      | nil => simp [isEmptyJ, mergeEntries]
      | cons p rr => simp [isEmptyJ, entriesJ]
    | vUndef =>
      simp only [mergeStepVal]
      congr 1
      unfold mergeVal
      cases w with
      | nil => simp [isEmptyJ, mergeEntries]
      | cons p rr => simp [isEmptyJ, entriesJ]
    | vNull =>
      simp only [mergeStepVal]
      congr 1
      unfold mergeVal
      cases w with
      | nil => simp [isEmptyJ, mergeEntries]
      | cons p rr => simp [isEmptyJ, entriesJ]
    | vBool b =>
      simp only [mergeStepVal]
      congr 1
      unfold mergeVal
      cases w with
      | nil => simp [isEmptyJ, mergeEntries]
      | cons p rr => simp [isEmptyJ, entriesJ]
    | vNum n =>
      simp only [mergeStepVal]
      congr 1
      unfold mergeVal
      cases w with
      | nil => simp [isEmptyJ, mergeEntries]
      | cons p rr => simp [isEmptyJ, entriesJ]
    | vStr s =>
      simp only [mergeStepVal]
      congr 1
      unfold mergeVal
      cases w with
      | nil => simp [isEmptyJ, mergeEntries]
      | cons p rr => simp [isEmptyJ, entriesJ]
    | vArr xs =>
      simp only [mergeStepVal]
      congr 1
      unfold mergeVal
      cases w with
      | nil => simp [isEmptyJ, mergeEntries]
      | cons p rr => simp [isEmptyJ, entriesJ]

end VP

namespace VP

open JVal

/-! ### Wellformed values are normalized; clone is the identity on trees -/

theorem nrE_of_wf :
    ∀ kvs : List (String × JVal), nodupKeys kvs = true → wfEntries kvs = true →
      nrE kvs = true
  | [], _, _ => rfl
  | (k, v) :: r, hnd, hwf => by
    simp only [nodupKeys, Bool.and_eq_true, Bool.not_eq_true'] at hnd
    simp only [wfEntries, Bool.and_eq_true] at hwf
    simp only [nrE, Bool.and_eq_true, Bool.not_eq_true']
    refine ⟨⟨hnd.1, ?_⟩, nrE_of_wf r hnd.2 hwf.2⟩
    cases v with
    | vObj w =>
      have hw : nodupKeys w = true ∧ wfEntries w = true := by
        simpa [wfJ, Bool.and_eq_true] using hwf.1
      simpa [nrJ] using nrE_of_wf w hw.1 hw.2
    | vUndef => rfl
    | vNull => rfl
    | vBool b => rfl
    | vNum n => rfl
    | vStr s => rfl
    | vArr xs => rfl
termination_by kvs _ _ => sizeOf kvs

theorem nrJ_of_wf {v : JVal} (h : wfJ v = true) : nrJ v = true := by
  cases v with
  | vObj kvs =>
    have hw : nodupKeys kvs = true ∧ wfEntries kvs = true := by
      simpa [wfJ, Bool.and_eq_true] using h
    simpa [nrJ] using nrE_of_wf kvs hw.1 hw.2
  | vUndef => rfl
  | vNull => rfl
  | vBool b => rfl
  | vNum n => rfl
  | vStr s => rfl
  | vArr xs => rfl

mutual

/-- On identity-free trees the structural copy of `deepClone` returns an
equal value: cloning changes nothing observable about a pure tree. -/
theorem deepCloneJ_id : ∀ v : JVal, deepCloneJ v = v
  | vObj kvs => by rw [deepCloneJ, cloneEntries_id kvs]
  | vArr xs => by rw [deepCloneJ, cloneElems_id xs]
  | vUndef => by simp [deepCloneJ]
  | vNull => by simp [deepCloneJ]
  | vBool b => by simp [deepCloneJ]
  | vNum n => by simp [deepCloneJ]
  | vStr s => by simp [deepCloneJ]

theorem cloneEntries_id : ∀ l : List (String × JVal), cloneEntries l = l
  | [] => by rw [cloneEntries]
  | (k, v) :: r => by rw [cloneEntries, deepCloneJ_id v, cloneEntries_id r]

theorem cloneElems_id : ∀ l : List JVal, cloneElems l = l
  | [] => by rw [cloneElems]
  | v :: r => by rw [cloneElems, deepCloneJ_id v, cloneElems_id r]

end

/-! ### Path walks -/

theorem splitAux_ne_nil : ∀ (cs cur : List Char), splitAux cs cur ≠ []
  | [], cur => by simp [splitAux]
  | c :: r, cur => by
    by_cases h : c = '.' <;> simp [splitAux, h, splitAux_ne_nil r]

theorem splitDots_ne_nil (s : String) : splitDots s ≠ [] :=
  splitAux_ne_nil s.data []

theorem getPath_cons (t : JVal) (k : String) (segs : List String) :
    getPath t (k :: segs) = getPath (if truthy t then getProp t k else t) segs := rfl

theorem getPath_falsy (segs : List String) (t : JVal) (h : truthy t = false) :
    getPath t segs = t := by
  induction segs with
  | nil => rfl
  | cons k rest ih => rw [getPath_cons, h]; simpa using ih

/-- Strict structural walk: descends through plain objects along present
keys only, `none` as soon as a key is missing or a non-object is hit
before the path ends.  `jpGet s p = some v` says the path `p` genuinely
resolves in `s` to `v`. -/
def jpGet : JVal → List String → Option JVal
  | t, [] => some t
  | vObj kvs, k :: rest =>
      (match getKey kvs k with
        | some v => jpGet v rest
        | none => none)
  | _, _ :: _ => none

theorem jpGet_obj_cons (kvs : List (String × JVal)) (k : String) (rest : List String) :
    jpGet (vObj kvs) (k :: rest) =
      (match getKey kvs k with
        | some v => jpGet v rest
        | none => none) := rfl

theorem jpGet_some_obj {t : JVal} {k : String} {rest : List String} {v : JVal}
    (h : jpGet t (k :: rest) = some v) :
    ∃ kvs u, t = vObj kvs ∧ getKey kvs k = some u ∧ jpGet u rest = some v := by
  cases t with
  | vObj kvs =>
    rw [jpGet_obj_cons] at h
    cases hg : getKey kvs k with
    | none => rw [hg] at h; simp at h
    | some u => rw [hg] at h; exact ⟨kvs, u, rfl, hg, h⟩
  | vUndef => simp [jpGet] at h
  | vNull => simp [jpGet] at h
  | vBool b => simp [jpGet] at h
  | vNum n => simp [jpGet] at h
  | vStr s => simp [jpGet] at h
  | vArr xs => simp [jpGet] at h

theorem jpGet_getPath : ∀ (segs : List String) (t v : JVal),
    jpGet t segs = some v → getPath t segs = v := by
  intro segs
  induction segs with
  | nil =>
    intro t v h
    simp only [jpGet, Option.some.injEq] at h
    subst h
    rfl
  | cons k rest ih =>
    intro t v h
    obtain ⟨kvs, u, ht, hg, hrest⟩ := jpGet_some_obj h
    subst ht
    rw [getPath_cons]
    simp only [truthy, if_true, getProp, hg, Option.getD_some]
    exact ih u v hrest

/-- Rewriting a resolving path with the value already there changes
nothing: the walk keeps every truthy intermediate and the final
assignment rebinds the same value. -/
theorem setPath_jpGet_id : ∀ (segs : List String) (t v : JVal), segs ≠ [] →
    jpGet t segs = some v → setPath t segs v = some t
  | [], _, _, hne, _ => absurd rfl hne
  | [k], t, v, _, h => by
    obtain ⟨kvs, u, ht, hg, hrest⟩ := jpGet_some_obj h
    subst ht
    simp only [jpGet] at hrest
    have hu : u = v := by simpa using hrest
    subst hu
    simp only [setPath, setProp]
    rw [setKey_same hg]
  | k :: k2 :: rest, t, v, _, h => by
    obtain ⟨kvs, u, ht, hg, hrest⟩ := jpGet_some_obj h
    subst ht
    obtain ⟨uk, u2, hu, _, _⟩ := jpGet_some_obj hrest
    simp only [setPath, getProp, hg, Option.getD_some]
    have htr : truthy u = true := by rw [hu]; rfl
    rw [htr]
    simp only [if_true]
    rw [setPath_jpGet_id (k2 :: rest) u v (by simp) hrest]
    simp only [setProp]
    rw [setKey_same hg]

end VP

namespace VP

open JVal

/-- Partial-unfolding relation: `Part x s` says the tree `x` is a
partial copy of `s` — either exactly `s`'s value, or a plain object each
of whose bindings is a partial copy of `s`'s binding at the same key.
The projection accumulator built by `reducerState` is always a partial
copy of the projected state when every written path resolves. -/
inductive Part : JVal → JVal → Prop where
  | refl (x : JVal) : Part x x
  | obj {xk sk : List (String × JVal)} :
      (∀ k v sv, getKey xk k = some v → getKey sk k = some sv → Part v sv) →
      (∀ k v, getKey xk k = some v → hasKey sk k = true) →
      Part (vObj xk) (vObj sk)

theorem part_of_obj {u : JVal} {sk : List (String × JVal)}
    (h : Part u (vObj sk)) : ∃ uk, u = vObj uk := by
  cases h with
  | refl => exact ⟨sk, rfl⟩
  | obj hpt hdom => exact ⟨_, rfl⟩

theorem part_obj_of_point {xk sk : List (String × JVal)}
    (h : ∀ k v, getKey xk k = some v → ∃ sv, getKey sk k = some sv ∧ Part v sv) :
    Part (vObj xk) (vObj sk) := by
  refine Part.obj ?_ ?_
  · intro k v sv hg hgs
    obtain ⟨sv', hgs', hp⟩ := h k v hg
    rw [hgs] at hgs'
    have hsv : sv' = sv := by simpa using hgs'.symm
    exact hsv ▸ hp
  · intro k v hg
    obtain ⟨sv', hgs', _⟩ := h k v hg
    rw [← getKey_isSome_iff_hasKey, hgs']
    rfl

theorem part_point {xk sk : List (String × JVal)}
    (h : Part (vObj xk) (vObj sk)) :
    ∀ k v, getKey xk k = some v → ∃ sv, getKey sk k = some sv ∧ Part v sv := by
  cases h with
  | refl => intro k v hg; exact ⟨v, hg, Part.refl v⟩
  | obj hpt hdom =>
    intro k v hg
    have hk := hdom k v hg
    have hiff := getKey_isSome_iff_hasKey sk k
    rw [hk] at hiff
    cases hsv : getKey sk k with
    | none => rw [hsv] at hiff; simp at hiff
    | some sv => exact ⟨sv, rfl, hpt k v sv hg hsv⟩

/-- Core write lemma: writing the resolved value of a path of `s` into a
partial copy of `s` succeeds, yields again a partial copy, establishes
the path, and preserves agreement with `s` along every other path. -/
theorem setPath_core :
    ∀ (segs : List String) (x s w : JVal), segs ≠ [] → Part x s →
      jpGet s segs = some w →
      ∃ x', setPath x segs w = some x' ∧ Part x' s ∧ jpGet x' segs = some w ∧
        (∀ q, q ≠ [] → jpGet x q = jpGet s q → jpGet x' q = jpGet s q)
  | [], _, _, _, hne, _, _ => absurd rfl hne
  | [k], x, s, w, _, hpart, hjp => by
    obtain ⟨sk, u, hs, hg, hrest⟩ := jpGet_some_obj hjp
    subst hs
    simp only [jpGet, Option.some.injEq] at hrest
    subst hrest
    obtain ⟨xk, hx⟩ := part_of_obj hpart
    subst hx
    have hpt := part_point hpart
    refine ⟨vObj (setKey xk k u), by simp [setPath, setProp], ?_, ?_, ?_⟩
    · refine part_obj_of_point ?_
      intro k' v' hg'
      by_cases hk : k' = k
      · subst hk
        rw [getKey_setKey_self] at hg'
        have hv' : v' = u := by simpa using hg'.symm
        subst hv'
        exact ⟨v', hg, Part.refl v'⟩
      · rw [getKey_setKey_other _ _ hk] at hg'
        exact hpt k' v' hg'
    · simp [jpGet_obj_cons, getKey_setKey_self, jpGet]
    · intro q hq hxq
      cases q with
      | nil => exact absurd rfl hq
      | cons q0 qr =>
        by_cases hk : q0 = k
        · subst hk
          simp [jpGet_obj_cons, getKey_setKey_self, hg]
        · rw [jpGet_obj_cons] at hxq ⊢
          rw [getKey_setKey_other _ _ hk]
          exact hxq
  | k :: k2 :: rest, x, s, w, _, hpart, hjp => by
    obtain ⟨sk, sv, hs, hgs, hrest⟩ := jpGet_some_obj hjp
    subst hs
    obtain ⟨xk, hx⟩ := part_of_obj hpart
    subst hx
    have hpt := part_point hpart
    obtain ⟨svk, u2, hsv, hsv2, hsv3⟩ := jpGet_some_obj hrest
    cases hgx : getKey xk k with
    | some u =>
      obtain ⟨sv', hgs', hpu0⟩ := hpt k u hgx
      have hsveq : sv' = sv := by
        rw [hgs] at hgs'
        simpa using hgs'.symm
      rw [hsveq] at hpu0
      obtain ⟨uk, hu⟩ := part_of_obj (hsv ▸ hpu0)
      have htru : truthy u = true := by rw [hu]; rfl
      obtain ⟨u', hset, hpart', hjp', hpres'⟩ :=
        setPath_core (k2 :: rest) u sv w (by simp) hpu0 hrest
      refine ⟨vObj (setKey xk k u'), ?_, ?_, ?_, ?_⟩
      · simp only [setPath, getProp, hgx, Option.getD_some, htru, if_true, hset,
          setProp]
      · refine part_obj_of_point ?_
        intro k' v' hg'
        by_cases hk : k' = k
        · subst hk
          rw [getKey_setKey_self] at hg'
          have hv' : v' = u' := by simpa using hg'.symm
          subst hv'
          exact ⟨sv, hgs, hpart'⟩
        · rw [getKey_setKey_other _ _ hk] at hg'
          exact hpt k' v' hg'
      · simp only [jpGet_obj_cons, getKey_setKey_self]
        exact hjp'
      · intro q hq hxq
        cases q with
        | nil => exact absurd rfl hq
        | cons q0 qr =>
          by_cases hk : q0 = k
          · subst hk
            rw [jpGet_obj_cons, hgx] at hxq
            rw [jpGet_obj_cons, hgs] at hxq
            simp only [jpGet_obj_cons, getKey_setKey_self, hgs]
            cases qr with
            | nil =>
              have huv : u = sv := by simpa [jpGet] using hxq
              subst huv
              have hid := setPath_jpGet_id (k2 :: rest) u w (by simp) hrest
              rw [hset] at hid
              have hu'u : u' = u := by simpa using hid
              rw [hu'u]
            | cons q1 qr' =>
              exact hpres' (q1 :: qr') (by simp) hxq
          · rw [jpGet_obj_cons] at hxq ⊢
            rw [getKey_setKey_other _ _ hk]
            exact hxq
    | none =>
      have hpempty : Part (vObj []) sv := by
        rw [hsv]
        refine part_obj_of_point ?_
        intro k' v' hg'
        simp [getKey] at hg'
      obtain ⟨u', hset, hpart', hjp', hpres'⟩ :=
        setPath_core (k2 :: rest) (vObj []) sv w (by simp) hpempty hrest
      refine ⟨vObj (setKey xk k u'), ?_, ?_, ?_, ?_⟩
      · simp only [setPath, getProp, hgx, Option.getD_none, truthy, Bool.false_eq_true,
          if_false, hset, setProp]
      · refine part_obj_of_point ?_
        intro k' v' hg'
        by_cases hk : k' = k
        · subst hk
          rw [getKey_setKey_self] at hg'
          have hv' : v' = u' := by simpa using hg'.symm
          subst hv'
          exact ⟨sv, hgs, hpart'⟩
        · rw [getKey_setKey_other _ _ hk] at hg'
          exact hpt k' v' hg'
      · simp only [jpGet_obj_cons, getKey_setKey_self]
        exact hjp'
      · intro q hq hxq
        cases q with
        | nil => exact absurd rfl hq
        | cons q0 qr =>
          by_cases hk : q0 = k
          · subst hk
            rw [jpGet_obj_cons, hgx] at hxq
            rw [jpGet_obj_cons, hgs] at hxq
            simp only [jpGet_obj_cons, getKey_setKey_self, hgs]
            cases qr with
            | nil =>
              simp [jpGet] at hxq
            | cons q1 qr' =>
              refine hpres' (q1 :: qr') (by simp) ?_
              rw [jpGet_obj_cons]
              simp only [getKey]
              exact hxq
          · rw [jpGet_obj_cons] at hxq ⊢
            rw [getKey_setKey_other _ _ hk]
            exact hxq

end VP

namespace VP

open JVal

/-! ### Wellformedness through reads and writes -/

theorem wfElems_getD : ∀ (xs : List JVal) (i : Nat), wfElems xs = true →
    wfJ (xs.getD i vUndef) = true
  | [], i, _ => by cases i <;> rfl
  | x :: r, 0, h => by
    simp only [wfElems, Bool.and_eq_true] at h
    simpa [List.getD] using h.1
  | x :: r, i + 1, h => by
    simp only [wfElems, Bool.and_eq_true] at h
    simpa [List.getD] using wfElems_getD r i h.2

theorem wfElems_set : ∀ (xs : List JVal) (i : Nat) (v : JVal),
    wfElems xs = true → wfJ v = true → wfElems (xs.set i v) = true
  | [], _, _, _, _ => rfl
  | x :: r, 0, v, h, hv => by
    simp only [wfElems, Bool.and_eq_true] at h
    simp [List.set, wfElems, hv, h.2]
  | x :: r, i + 1, v, h, hv => by
    simp only [wfElems, Bool.and_eq_true] at h
    simp [List.set, wfElems, h.1, wfElems_set r i v h.2 hv]

theorem getProp_wf {t : JVal} (k : String) (h : wfJ t = true) :
    wfJ (getProp t k) = true := by
  cases t with
  | vObj kvs =>
    simp only [wfJ, Bool.and_eq_true] at h
    simp only [getProp]
    cases hg : getKey kvs k with
    | none => rfl
    | some v => simpa using wfJ_getKey h.2 hg
  | vArr xs =>
    simp only [wfJ] at h
    simp only [getProp]
    split
    · rfl
    · split
      · exact wfElems_getD xs _ h
      · rfl
  | vStr s =>
    simp only [getProp]
    split
    · rfl
    · split
      · split <;> rfl
      · rfl
  | vUndef => rfl
  | vNull => rfl
  | vBool b => rfl
  | vNum n => rfl

theorem getPath_wf (segs : List String) : ∀ t : JVal, wfJ t = true →
    wfJ (getPath t segs) = true := by
  induction segs with
  | nil => intro t h; exact h
  | cons k rest ih =>
    intro t h
    rw [getPath_cons]
    by_cases ht : truthy t = true
    · simp only [ht, if_true]
      exact ih _ (getProp_wf k h)
    · simp only [Bool.not_eq_true] at ht
      simp only [ht, Bool.false_eq_true, if_false, if_neg]
      exact ih _ h

theorem setKey_nodup {l : List (String × JVal)} {k : String} (v : JVal)
    (h : nodupKeys l = true) : nodupKeys (setKey l k v) = true := by
  induction l with
  | nil => simp [setKey, nodupKeys, hasKey]
  | cons p r ih =>
    obtain ⟨k0, v0⟩ := p
    simp only [nodupKeys, Bool.and_eq_true, Bool.not_eq_true'] at h
    by_cases h0 : k0 = k
    · subst h0
      simp [setKey, nodupKeys, h.1, h.2, Bool.not_eq_true']
    · simp only [setKey, if_neg h0, nodupKeys, Bool.and_eq_true, Bool.not_eq_true']
      refine ⟨?_, ih h.2⟩
      rw [hasKey_setKey]
      simp only [h.1, Bool.false_or]
      simpa using h0

theorem setKey_wfEntries {l : List (String × JVal)} {k : String} {v : JVal}
    (h : wfEntries l = true) (hv : wfJ v = true) :
    wfEntries (setKey l k v) = true := by
  induction l with
  | nil => simp [setKey, wfEntries, hv]
  | cons p r ih =>
    obtain ⟨k0, v0⟩ := p
    simp only [wfEntries, Bool.and_eq_true] at h
    by_cases h0 : k0 = k
    · simp [setKey, h0, wfEntries, hv, h.2]
    · simp [setKey, h0, wfEntries, h.1, ih h.2]

theorem setProp_wf {t : JVal} {k : String} {v r : JVal}
    (ht : wfJ t = true) (hv : wfJ v = true) (h : setProp t k v = some r) :
    wfJ r = true := by
  cases t with
  | vObj kvs =>
    simp only [setProp, Option.some.injEq] at h
    subst h
    simp only [wfJ, Bool.and_eq_true] at ht ⊢
    exact ⟨setKey_nodup v ht.1, setKey_wfEntries ht.2 hv⟩
  | vArr xs =>
    simp only [setProp] at h
    split at h
    · rename_i i hci
      simp only [Option.some.injEq] at h
      subst h
      simp only [wfJ] at ht ⊢
      exact wfElems_set xs i v ht hv
    · simp only [Option.some.injEq] at h
      subst h
      exact ht
  | vUndef => simp [setProp] at h
  | vNull => simp [setProp] at h
  | vBool b => simp [setProp] at h
  | vNum n => simp [setProp] at h
  | vStr s => simp [setProp] at h

theorem setPath_wf : ∀ (segs : List String) (t v r : JVal),
    wfJ t = true → wfJ v = true → setPath t segs v = some r → wfJ r = true
  | [], t, v, r, ht, _, h => by
    simp only [setPath, Option.some.injEq] at h
    subst h
    exact ht
  | [k], t, v, r, ht, hv, h => setProp_wf ht hv h
  | k :: k2 :: rest, t, v, r, ht, hv, h => by
    simp only [setPath] at h
    cases hinner : setPath (if truthy (getProp t k) then getProp t k else vObj [])
        (k2 :: rest) v with
    | none => rw [hinner] at h; simp at h
    | some inner =>
      rw [hinner] at h
      have hnxt : wfJ (if truthy (getProp t k) then getProp t k else vObj []) = true := by
        by_cases htr : truthy (getProp t k) = true
        · simpa [htr] using getProp_wf k ht
        · simp only [Bool.not_eq_true] at htr
          simp only [htr, Bool.false_eq_true, if_false, if_neg]
          rfl
      have hwin : wfJ inner = true := setPath_wf (k2 :: rest) _ v inner hnxt hv hinner
      exact setProp_wf ht hwin h

/-! ### The projection fold -/

theorem reducer_fold :
    ∀ (P : List String) (acc s : JVal), Part acc s →
      (∀ p ∈ P, (jpGet s (splitDots p)).isSome = true) →
      ∃ T,
        List.foldlM (fun a p => setPath a (splitDots p) (getPath s (splitDots p))) acc P
          = some T
        ∧ Part T s
        ∧ (∀ q, q ≠ [] → jpGet acc q = jpGet s q → jpGet T q = jpGet s q)
        ∧ (∀ p ∈ P, jpGet T (splitDots p) = jpGet s (splitDots p)) := by
  intro P
  induction P with
  | nil =>
    intro acc s hpart _
    exact ⟨acc, rfl, hpart, fun q _ h => h, fun p hp => by simp at hp⟩
  | cons p P' ih =>
    intro acc s hpart hres
    have hw := hres p (List.mem_cons_self _ _)
    obtain ⟨w, hw⟩ := Option.isSome_iff_exists.mp hw
    have hgp : getPath s (splitDots p) = w := jpGet_getPath _ _ _ hw
    obtain ⟨acc1, hset, hpart1, hjp1, hpres1⟩ :=
      setPath_core (splitDots p) acc s w (splitDots_ne_nil p) hpart hw
    obtain ⟨T, hT, hpartT, hpresT, hpathsT⟩ :=
      ih acc1 s hpart1 (fun q hq => hres q (List.mem_cons_of_mem _ hq))
    refine ⟨T, ?_, hpartT, ?_, ?_⟩
    · rw [List.foldlM_cons, hgp, hset]
      exact hT
    · intro q hq hacc
      exact hpresT q hq (hpres1 q hq hacc)
    · intro p' hp'
      rcases List.mem_cons.mp hp' with h1 | h1
      · subst h1
        refine hpresT (splitDots p') (splitDots_ne_nil p') ?_
        rw [hjp1, hw]
      · exact hpathsT p' h1

theorem reducer_fold_wf :
    ∀ (P : List String) (acc s T : JVal), wfJ acc = true → wfJ s = true →
      List.foldlM (fun a p => setPath a (splitDots p) (getPath s (splitDots p))) acc P
        = some T → wfJ T = true := by
  intro P
  induction P with
  | nil =>
    intro acc s T hacc _ h
    simp only [List.foldlM_nil] at h
    have : acc = T := by simpa using h
    exact this ▸ hacc
  | cons p P' ih =>
    intro acc s T hacc hs h
    rw [List.foldlM_cons] at h
    cases hset : setPath acc (splitDots p) (getPath s (splitDots p)) with
    | none => rw [hset] at h; simp at h
    | some acc1 =>
      rw [hset] at h
      have hacc1 : wfJ acc1 = true :=
        setPath_wf (splitDots p) acc _ acc1 hacc (getPath_wf _ s hs) hset
      exact ih acc1 s T hacc1 hs h

end VP

namespace VP

open JVal

theorem nodup_of_nr : ∀ {l : List (String × JVal)}, nrE l = true → nodupKeys l = true
  | [], _ => rfl
  | (k, v) :: r, h => by
    simp only [nrE, Bool.and_eq_true, Bool.not_eq_true'] at h
    simp only [nodupKeys, Bool.and_eq_true, Bool.not_eq_true']
    exact ⟨h.1.1, nodup_of_nr h.2⟩

/-- Right-hand domination through a merge: reading a path that resolves
in the right-hand record, down to a non-object value, gives that value
in the merged record no matter what the left accumulator held. -/
theorem getPath_mergeEntries_dom :
    ∀ (segs : List String) (pk A : List (String × JVal)) (w : JVal),
      nrE pk = true → jpGet (vObj pk) segs = some w → isPlainObject w = false →
      segs ≠ [] → getPath (vObj (mergeEntries A pk)) segs = w
  | [], _, _, _, _, _, _, hne => absurd rfl hne
  | k :: rest, pk, A, w, hnr, hjp, hnp, _ => by
    obtain ⟨pk2, pv, he, hg, hrest⟩ := jpGet_some_obj hjp
    have hpk : pk2 = pk := by simpa using he.symm
    rw [hpk] at hg
    have hnd : nodupKeys pk = true := nodup_of_nr hnr
    have hmem := getKey_mergeEntries_mem pk A k pv hnd hg
    cases rest with
    | nil =>
      simp only [jpGet, Option.some.injEq] at hrest
      subst hrest
      have hstep : mergeStepVal (getKey A k) pv = pv := by
        cases pv with
        | vObj o => simp [isPlainObject] at hnp
        | vUndef => rfl
        | vNull => rfl
        | vBool b => rfl
        | vNum n => rfl
        | vStr s => rfl
        | vArr xs => rfl
      rw [getPath_cons]
      simp only [truthy, if_true, getProp, hmem, hstep, Option.getD_some]
      rfl
    | cons k2 rest' =>
      obtain ⟨pvk, u2, hpv, hpv2, hpv3⟩ := jpGet_some_obj hrest
      subst hpv
      have hnrv : nrE pvk = true := by
        simpa [nrJ] using nrJ_getKey hnr hg
      rw [getPath_cons]
      simp only [truthy, if_true, getProp, hmem, Option.getD_some]
      cases hga : getKey A k with
      | some u =>
        cases u with
        | vObj ae =>
          simp only [mergeStepVal]
          exact getPath_mergeEntries_dom (k2 :: rest') pvk ae w hnrv hrest hnp (by simp)
        | vUndef =>
          simp only [mergeStepVal]
          rw [mergeEntries_norm_of_nr pvk hnrv]
          exact jpGet_getPath _ _ _ hrest
        | vNull =>
          simp only [mergeStepVal]
          rw [mergeEntries_norm_of_nr pvk hnrv]
          exact jpGet_getPath _ _ _ hrest
        | vBool b =>
          simp only [mergeStepVal]
          rw [mergeEntries_norm_of_nr pvk hnrv]
          exact jpGet_getPath _ _ _ hrest
        | vNum n =>
          simp only [mergeStepVal]
          rw [mergeEntries_norm_of_nr pvk hnrv]
          exact jpGet_getPath _ _ _ hrest
        | vStr s =>
          simp only [mergeStepVal]
          rw [mergeEntries_norm_of_nr pvk hnrv]
          exact jpGet_getPath _ _ _ hrest
        | vArr xs =>
          simp only [mergeStepVal]
          rw [mergeEntries_norm_of_nr pvk hnrv]
          exact jpGet_getPath _ _ _ hrest
      | none =>
        simp only [mergeStepVal]
        rw [mergeEntries_norm_of_nr pvk hnrv]
        exact jpGet_getPath _ _ _ hrest

/-- Merging a wellformed plain object into a fresh empty tree reproduces
it: `deepMerge({}, t) = t` up to the bare-record prototype. -/
theorem deepMerge_norm_single (tk : List (String × JVal))
    (hwf : wfJ (vObj tk) = true) : deepMerge [vObj [], vObj tk] = vObj tk := by
  have hw : nodupKeys tk = true ∧ wfEntries tk = true := by
    simpa [wfJ, Bool.and_eq_true] using hwf
  show vObj (mergeVal (mergeVal [] (vObj [])) (vObj tk)) = vObj tk
  have h1 : mergeVal [] (vObj []) = [] := rfl
  rw [h1]
  unfold mergeVal
  cases tk with
  | nil => rfl
  | cons p r =>
    simp only [isEmptyJ, entriesJ, List.isEmpty_cons, Bool.false_eq_true, if_false, if_neg]
    rw [mergeEntries_norm_of_nr _ (nrE_of_wf _ hw.1 hw.2)]

theorem reducer_congr :
    ∀ (P : List String) (acc M S : JVal),
      (∀ p ∈ P, getPath M (splitDots p) = getPath S (splitDots p)) →
      List.foldlM (fun a p => setPath a (splitDots p) (getPath M (splitDots p))) acc P =
        List.foldlM (fun a p => setPath a (splitDots p) (getPath S (splitDots p))) acc P := by
  intro P
  induction P with
  | nil => intro acc M S _; rfl
  | cons p P' ih =>
    intro acc M S h
    rw [List.foldlM_cons, List.foldlM_cons, h p (List.mem_cons_self _ _)]
    cases hset : setPath acc (splitDots p) (getPath S (splitDots p)) with
    | none => rfl
    | some acc1 =>
      exact ih acc1 M S (fun q hq => h q (List.mem_cons_of_mem _ hq))

end VP

namespace VP

open JVal

/-! ### The reset subscriber (src/persistedPlugin.ts, lines 193 to 227)

Persistence groups are the normalized `unifyPaths` entries: an abstract
storage identity, a storage key and a path list.  The codec functions
are modelled as the default implementations acting on an abstract
storage environment (`getState` reads the stored value, `setState`
stores, `removeState` deletes); JSON round-tripping is the identity on
the JSON-like values involved.  The subscriber's storage side effects
are recorded as a trace of `Effect`s, and `applyEffects` gives the
storage contents after the trace. -/

/-- One normalized persistence group. -/
structure PGroup where
  storage : Nat
  storageKey : String
  paths : List String

/-- A storage side effect of the subscriber. -/
inductive Effect where
  | remState (st : Nat) (key : String) : Effect
  | putState (st : Nat) (key : String) (val : JVal) : Effect

/-- Contents of all storages: a map from (storage, key) to the stored
value. -/
def Env : Type := List ((Nat × String) × JVal)

def envGet : Env → Nat → String → Option JVal
  | [], _, _ => none
  | (p, v) :: r, st, k => if p = (st, k) then some v else envGet r st k

def envSet : Env → Nat → String → JVal → Env
  | [], st, k, v => [((st, k), v)]
  | (p, w) :: r, st, k, v =>
      if p = (st, k) then (p, v) :: r else (p, w) :: envSet r st k v

def envDel : Env → Nat → String → Env
  | [], _, _ => []
  | (p, v) :: r, st, k =>
      if p = (st, k) then envDel r st k else (p, v) :: envDel r st k

def applyEffect (e : Env) : Effect → Env
  | Effect.remState st k => envDel e st k
  | Effect.putState st k v => envSet e st k v

def applyEffects (e : Env) (effs : List Effect) : Env :=
  effs.foldl applyEffect e

/-- The no-payload branch of the reset subscriber: every group's
`removeState(storage, storageKey)` is called, then the live state is
replaced with `deepMerge(state, initState)`.  Result: the effect trace
and the replacement state. -/
def resetFull (groups : List PGroup) (state initState : JVal) :
    List Effect × JVal :=
  (groups.map (fun g => Effect.remState g.storage g.storageKey),
   deepMerge [state, initState])

/-- The per-group save loop of the payload branch: each group reads its
stored value (empty object fallback), merges in the projection of
`mutationMergeState` to its paths, and stores the result; the storage
environment is threaded because a later group's read sees an earlier
group's write. -/
def scopedSaves : List PGroup → Env → JVal → Option (Env × List Effect)
  | [], env, _ => some (env, [])
  | g :: gs, env, mms =>
      let saved := (envGet env g.storage g.storageKey).getD (vObj [])
      match reducerState mms g.paths with
      | none => none
      | some pr =>
          let val := deepMerge [saved, pr]
          match scopedSaves gs (envSet env g.storage g.storageKey val) mms with
          | none => none
          | some (env2, effs) =>
              some (env2, Effect.putState g.storage g.storageKey val :: effs)

/-- The payload branch of the reset subscriber:
`mutationMergeState := deepMerge(deepClone(state), reducerState(initState,
payload))`, per-group saves, then `replaceState(deepMerge(state,
mutationMergeState))`.  `none` models a throw inside `reducerState`. -/
def resetScoped (groups : List PGroup) (env : Env) (state initState : JVal)
    (payload : List String) : Option (List Effect × JVal) :=
  let mutationState := deepCloneJ state
  match reducerState initState payload with
  | none => none
  | some proj =>
      let mms := deepMerge [mutationState, proj]
      match scopedSaves groups env mms with
      | none => none
      | some (_, effs) => some (effs, deepMerge [state, mms])

mutual

/-- Same nested key structure: both sides are plain objects with the
same keys in the same order at every level where either is a plain
object, with no constraint on non-object leaves.  A state that only ever
mutated existing fields has the same shape as its attach-time clone. -/
def ssJ : JVal → JVal → Bool
  | vObj a, vObj b => ssE a b
  | vObj _, _ => false
  | vUndef, vObj _ => false
  | vNull, vObj _ => false
  | vBool _, vObj _ => false
  | vNum _, vObj _ => false
  | vStr _, vObj _ => false
  | vArr _, vObj _ => false
  | _, _ => true

/-- Shape agreement of two field lists. -/
def ssE : List (String × JVal) → List (String × JVal) → Bool
  | [], [] => true
  | (ka, va) :: ra, (kb, vb) :: rb => ka == kb && ssJ va vb && ssE ra rb
  | [], _ :: _ => false
  | _ :: _, [] => false

end

theorem extE_of_ssE : ∀ (a b : List (String × JVal)), ssE a b = true →
    extE a b = true
  | [], [], _ => rfl
  | [], _ :: _, h => by simp [ssE] at h
  | _ :: _, [], h => by simp [ssE] at h
  | (ka, va) :: ra, (kb, vb) :: rb, h => by
    simp only [ssE, Bool.and_eq_true] at h
    obtain ⟨⟨hk, hv⟩, hr⟩ := h
    simp only [extE, Bool.and_eq_true]
    refine ⟨⟨hk, ?_⟩, extE_of_ssE ra rb hr⟩
    cases vb with
    | vObj wb =>
      cases va with
      | vObj wa => simpa [extV] using extE_of_ssE wa wb (by simpa [ssJ] using hv)
      | vUndef => simp [ssJ] at hv
      | vNull => simp [ssJ] at hv
      | vBool x => simp [ssJ] at hv
      | vNum x => simp [ssJ] at hv
      | vStr x => simp [ssJ] at hv
      | vArr x => simp [ssJ] at hv
    | vUndef => cases va <;> rfl
    | vNull => cases va <;> rfl
    | vBool x => cases va <;> rfl
    | vNum x => cases va <;> rfl
    | vStr x => cases va <;> rfl
    | vArr x => cases va <;> rfl
termination_by a _ _ => sizeOf a

theorem envGet_envDel_self (e : Env) (st : Nat) (k : String) :
    envGet (envDel e st k) st k = none := by
  induction e with
  | nil => rfl
  | cons p r ih =>
    obtain ⟨q, v⟩ := p
    by_cases h : q = (st, k)
    · simpa [envDel, h] using ih
    · simp [envDel, h, envGet, ih]

theorem envGet_envDel_none {e : Env} {st : Nat} {k : String}
    (st2 : Nat) (k2 : String) (h : envGet e st k = none) :
    envGet (envDel e st2 k2) st k = none := by
  induction e with
  | nil => rfl
  | cons p r ih =>
    obtain ⟨q, v⟩ := p
    by_cases hq : q = (st2, k2)
    · simp only [envDel, if_pos hq]
      refine ih ?_
      simp only [envGet] at h
      by_cases hq2 : q = (st, k)
      · rw [if_pos hq2] at h; simp at h
      · rwa [if_neg hq2] at h
    · simp only [envDel, if_neg hq, envGet]
      simp only [envGet] at h
      by_cases hq2 : q = (st, k)
      · rw [if_pos hq2] at h; simp at h
      · rw [if_neg hq2] at h ⊢
        exact ih h

theorem dels_keep_none :
    ∀ (effs : List Effect) (env : Env) (st : Nat) (k : String),
      (∀ e ∈ effs, ∃ st2 k2, e = Effect.remState st2 k2) →
      envGet env st k = none →
      envGet (applyEffects env effs) st k = none := by
  intro effs
  induction effs with
  | nil => intro env st k _ h; exact h
  | cons e rest ih =>
    intro env st k hall h
    obtain ⟨st2, k2, he⟩ := hall e (List.mem_cons_self _ _)
    subst he
    exact ih _ st k (fun e2 h2 => hall e2 (List.mem_cons_of_mem _ h2))
      (envGet_envDel_none st2 k2 h)

theorem removes_clear :
    ∀ (groups : List PGroup) (env : Env) (g : PGroup), g ∈ groups →
      envGet
        (applyEffects env
          (groups.map (fun g => Effect.remState g.storage g.storageKey)))
        g.storage g.storageKey = none := by
  intro groups
  induction groups with
  | nil => intro env g hg; simp at hg
  | cons g0 rest ih =>
    intro env g hg
    rcases List.mem_cons.mp hg with h1 | h1
    · subst h1
      show envGet
        (applyEffects (envDel env g.storage g.storageKey)
          (rest.map (fun g => Effect.remState g.storage g.storageKey)))
        g.storage g.storageKey = none
      refine dels_keep_none _ _ _ _ ?_ (envGet_envDel_self env g.storage g.storageKey)
      intro e he
      obtain ⟨g2, hg2, he2⟩ := List.mem_map.mp he
      exact ⟨g2.storage, g2.storageKey, he2.symm⟩
    · exact ih (envDel env g0.storage g0.storageKey) g h1

end VP

namespace VP

open JVal

theorem mergeVal_nil_obj (sk : List (String × JVal)) (h : wfJ (vObj sk) = true) :
    mergeVal [] (vObj sk) = sk := by
  have hw : nodupKeys sk = true ∧ wfEntries sk = true := by
    simpa [wfJ, Bool.and_eq_true] using h
  cases sk with
  | nil => rfl
  | cons p r =>
    unfold mergeVal
    simp only [isEmptyJ, entriesJ, List.isEmpty_cons, Bool.false_eq_true, if_false, if_neg]
    exact mergeEntries_norm_of_nr _ (nrE_of_wf _ hw.1 hw.2)

theorem setPath_obj : ∀ (segs : List String) (tk : List (String × JVal)) (v r : JVal),
    setPath (vObj tk) segs v = some r → ∃ rk, r = vObj rk
  | [], tk, v, r, h => by
    simp only [setPath, Option.some.injEq] at h
    exact ⟨tk, h.symm⟩
  | [k], tk, v, r, h => by
    simp only [setPath, setProp, Option.some.injEq] at h
    exact ⟨setKey tk k v, h.symm⟩
  | k :: k2 :: rest, tk, v, r, h => by
    simp only [setPath] at h
    cases hin : setPath (if truthy (getProp (vObj tk) k) then getProp (vObj tk) k
        else vObj []) (k2 :: rest) v with
    | none => rw [hin] at h; simp at h
    | some inner =>
      rw [hin] at h
      simp only [setProp, Option.some.injEq] at h
      exact ⟨setKey tk k inner, h.symm⟩

theorem setPath_top : ∀ (rest : List String) (tk : List (String × JVal))
    (k0 : String) (v : JVal) (tk' : List (String × JVal)),
    setPath (vObj tk) (k0 :: rest) v = some (vObj tk') →
    ∀ k, hasKey tk' k = true → hasKey tk k = true ∨ k = k0 := by
  intro rest tk k0 v tk' h k hk
  cases rest with
  | nil =>
    simp only [setPath, setProp, Option.some.injEq] at h
    have : tk' = setKey tk k0 v := by
      injection h.symm
    subst this
    rw [hasKey_setKey] at hk
    rcases Bool.or_eq_true_iff.mp hk with h1 | h1
    · exact Or.inl h1
    · exact Or.inr (by simpa using h1)
  | cons k2 rest' =>
    simp only [setPath] at h
    cases hin : setPath (if truthy (getProp (vObj tk) k0) then getProp (vObj tk) k0
        else vObj []) (k2 :: rest') v with
    | none => rw [hin] at h; simp at h
    | some inner =>
      rw [hin] at h
      simp only [setProp, Option.some.injEq] at h
      have : tk' = setKey tk k0 inner := by
        injection h.symm
      subst this
      rw [hasKey_setKey] at hk
      rcases Bool.or_eq_true_iff.mp hk with h1 | h1
      · exact Or.inl h1
      · exact Or.inr (by simpa using h1)

theorem reducer_obj_top :
    ∀ (P : List String) (tk : List (String × JVal)) (S : JVal)
      (rk : List (String × JVal)),
      List.foldlM (fun a p => setPath a (splitDots p) (getPath S (splitDots p)))
        (vObj tk) P = some (vObj rk) →
      ∀ k, hasKey rk k = true →
        hasKey tk k = true ∨ ∃ p ∈ P, (splitDots p).head? = some k := by
  intro P
  induction P with
  | nil =>
    intro tk S rk h k hk
    simp only [List.foldlM_nil] at h
    have heq : tk = rk := by simpa using h
    exact Or.inl (heq ▸ hk)
  | cons p P' ih =>
    intro tk S rk h k hk
    rw [List.foldlM_cons] at h
    cases hset : setPath (vObj tk) (splitDots p) (getPath S (splitDots p)) with
    | none => rw [hset] at h; simp at h
    | some a1 =>
      rw [hset] at h
      obtain ⟨a1k, ha1⟩ := setPath_obj _ _ _ _ hset
      subst ha1
      rcases ih a1k S rk h k hk with h1 | ⟨p2, hp2, hh⟩
      · cases hsp : splitDots p with
        | nil => exact absurd hsp (splitDots_ne_nil p)
        | cons k0 r0 =>
          rw [hsp] at hset
          rcases setPath_top r0 tk k0 _ a1k hset k h1 with h2 | h2
          · exact Or.inl h2
          · exact Or.inr ⟨p, List.mem_cons_self _ _, by rw [hsp, h2]; rfl⟩
      · exact Or.inr ⟨p2, List.mem_cons_of_mem _ hp2, hh⟩

theorem reducer_obj :
    ∀ (P : List String) (tk : List (String × JVal)) (S T : JVal),
      List.foldlM (fun a p => setPath a (splitDots p) (getPath S (splitDots p)))
        (vObj tk) P = some T → ∃ rk, T = vObj rk := by
  intro P
  induction P with
  | nil =>
    intro tk S T h
    simp only [List.foldlM_nil] at h
    have heq : vObj tk = T := by simpa using h
    exact ⟨tk, heq.symm⟩
  | cons p P' ih =>
    intro tk S T h
    rw [List.foldlM_cons] at h
    cases hset : setPath (vObj tk) (splitDots p) (getPath S (splitDots p)) with
    | none => rw [hset] at h; simp at h
    | some a1 =>
      rw [hset] at h
      obtain ⟨a1k, ha1⟩ := setPath_obj _ _ _ _ hset
      subst ha1
      exact ih a1k S T h

end VP

namespace VP

/-! ### Object identity and `deepClone` sharing (C3)

`JVal` trees cannot express that the same mutable object occurs twice.
`LVal` annotates every heap object with an identity: two subterms with
the same `id` denote the same mutable object, so mutating through one is
observed through the other.  `deepClone`'s WeakMap guard is the visited
id list; the second encounter of an id returns the original subterm
(`return target` in the source), everything else allocates a fresh id
from a counter.  "The clone shares no mutable nested container with the
input" is exactly "the id sets of clone and input are disjoint". -/

mutual

/-- A JS value with object identities: a primitive, or a heap object
with identity `id`. -/
inductive LVal where
  | lprim (n : Int) : LVal
  | lnode (id : Nat) (o : LObj) : LVal

/-- Contents of one heap object: a wrapper (Date / RegExp / boxed
primitive / Error, rebuilt by `new Ctor(target)`), a Map, a Set, an
array, or a plain object. -/
inductive LObj where
  | lwrap (tag : Int) : LObj
  | lmap (entries : List (LVal × LVal)) : LObj
  | lset (elems : List LVal) : LObj
  | larr (elems : List LVal) : LObj
  | lobj (fields : List (String × LVal)) : LObj

end

mutual

/-- `deepClone` on identity-carrying values: primitives are returned as
is; a visited object is returned as the original reference; wrappers are
rebuilt fresh (and, as in the source, not marked visited); Map / Set /
array / plain-object contents are cloned recursively after marking the
object visited.  Fresh identities are drawn from the counter `c`;
returns (clone, next counter, visited list). -/
def cloneV : LVal → Nat → List Nat → LVal × Nat × List Nat
  | LVal.lprim n, c, vis => (LVal.lprim n, c, vis)
  | LVal.lnode i o, c, vis =>
      if i ∈ vis then (LVal.lnode i o, c, vis)
      else
        match o with
        | LObj.lwrap t => (LVal.lnode c (LObj.lwrap t), c + 1, vis)
        | LObj.lmap es =>
            match cloneMapEntries es c (i :: vis) with
            | (es2, c2, vis2) => (LVal.lnode c2 (LObj.lmap es2), c2 + 1, vis2)
        | LObj.lset es =>
            match cloneElemsL es c (i :: vis) with
            | (es2, c2, vis2) => (LVal.lnode c2 (LObj.lset es2), c2 + 1, vis2)
        | LObj.larr es =>
            match cloneElemsL es c (i :: vis) with
            | (es2, c2, vis2) => (LVal.lnode c2 (LObj.larr es2), c2 + 1, vis2)
        | LObj.lobj fs =>
            match cloneFieldsL fs c (i :: vis) with
            | (fs2, c2, vis2) => (LVal.lnode c2 (LObj.lobj fs2), c2 + 1, vis2)

/-- Clone of a Map's (key, value) entries, keys first as
`cloneMap.set(deepClone(key, map), deepClone(value, map))` does. -/
def cloneMapEntries : List (LVal × LVal) → Nat → List Nat →
    List (LVal × LVal) × Nat × List Nat
  | [], c, vis => ([], c, vis)
  | (k, v) :: r, c, vis =>
      match cloneV k c vis with
      | (k2, c2, vis2) =>
        match cloneV v c2 vis2 with
        | (v2, c3, vis3) =>
          match cloneMapEntries r c3 vis3 with
          | (r2, c4, vis4) => ((k2, v2) :: r2, c4, vis4)

/-- Clone of a Set's or array's element list. -/
def cloneElemsL : List LVal → Nat → List Nat → List LVal × Nat × List Nat
  | [], c, vis => ([], c, vis)
  | x :: r, c, vis =>
      match cloneV x c vis with
      | (x2, c2, vis2) =>
        match cloneElemsL r c2 vis2 with
        | (r2, c3, vis3) => (x2 :: r2, c3, vis3)

/-- Clone of a plain object's field list
(`Object.getOwnPropertyNames` order). -/
def cloneFieldsL : List (String × LVal) → Nat → List Nat →
    List (String × LVal) × Nat × List Nat
  | [], c, vis => ([], c, vis)
  | (k, v) :: r, c, vis =>
      match cloneV v c vis with
      | (v2, c2, vis2) =>
        match cloneFieldsL r c2 vis2 with
        | (r2, c3, vis3) => ((k, v2) :: r2, c3, vis3)

end

mutual

/-- All object identities occurring in a value. -/
def idsV : LVal → List Nat
  | LVal.lprim _ => []
  | LVal.lnode i o => i :: idsO o

/-- All object identities occurring in an object's contents. -/
def idsO : LObj → List Nat
  | LObj.lwrap _ => []
  | LObj.lmap es => idsME es
  | LObj.lset es => idsL es
  | LObj.larr es => idsL es
  | LObj.lobj fs => idsF fs

/-- Identities in a list of values. -/
def idsL : List LVal → List Nat
  | [] => []
  | x :: r => idsV x ++ idsL r

/-- Identities in Map entries. -/
def idsME : List (LVal × LVal) → List Nat
  | [] => []
  | (k, v) :: r => idsV k ++ idsV v ++ idsME r

/-- Identities in a field list. -/
def idsF : List (String × LVal) → List Nat
  | [] => []
  | (_, v) :: r => idsV v ++ idsF r

end

end VP

namespace VP

mutual

theorem cloneV_fresh : ∀ (t : LVal) (c : Nat) (vis : List Nat),
    (idsV t).Nodup → (∀ i ∈ idsV t, i ∉ vis) → (∀ i ∈ idsV t, i < c) →
    (∀ j ∈ idsV (cloneV t c vis).1, c ≤ j)
    ∧ c ≤ (cloneV t c vis).2.1
    ∧ (∀ x ∈ (cloneV t c vis).2.2, x ∈ vis ∨ x ∈ idsV t)
  | LVal.lprim n, c, vis, _, _, _ => by
    refine ⟨?_, le_refl c, ?_⟩
    · intro j hj; simp [cloneV, idsV] at hj
    · intro x hx; exact Or.inl (by simpa [cloneV] using hx)
  | LVal.lnode i o, c, vis, hnd, hvis, hb => by
    have hin : i ∉ vis := hvis i (by simp [idsV])
    have hnd2 := List.nodup_cons.mp (by simpa [idsV] using hnd)
    cases o with
    | lwrap t =>
      simp only [cloneV, if_neg hin]
      refine ⟨?_, Nat.le_succ c, ?_⟩
      · intro j hj
        simp only [idsV, idsO] at hj
        simp only [List.mem_cons, List.not_mem_nil, or_false] at hj
        exact hj ▸ le_refl c
      · intro x hx; exact Or.inl hx
    | lmap es =>
      have hres := cloneMapEntries_fresh es c (i :: vis)
        hnd2.2
        (fun x hx => by
          simp only [List.mem_cons, not_or]
          exact ⟨fun hxi => hnd2.1 (hxi ▸ hx), hvis x (by simp [idsV, idsO, hx])⟩)
        (fun x hx => hb x (by simp [idsV, idsO, hx]))
      cases hcf : cloneMapEntries es c (i :: vis) with
      | mk es2 rest =>
        obtain ⟨c2, vis2⟩ := rest
        rw [hcf] at hres
        simp only at hres
        obtain ⟨h1, h2, h3⟩ := hres
        simp only [cloneV, if_neg hin, hcf]
        refine ⟨?_, le_trans h2 (Nat.le_succ c2), ?_⟩
        · intro j hj
          simp only [idsV, idsO, List.mem_cons] at hj
          rcases hj with hj | hj
          · exact hj ▸ h2
          · exact h1 j hj
        · intro x hx
          rcases h3 x hx with hx1 | hx1
          · rcases List.mem_cons.mp hx1 with hx2 | hx2
            · exact Or.inr (by simp [idsV, hx2])
            · exact Or.inl hx2
          · exact Or.inr (by simp [idsV, idsO, hx1])
    | lset es =>
      have hres := cloneElemsL_fresh es c (i :: vis)
        hnd2.2
        (fun x hx => by
          simp only [List.mem_cons, not_or]
          exact ⟨fun hxi => hnd2.1 (hxi ▸ hx), hvis x (by simp [idsV, idsO, hx])⟩)
        (fun x hx => hb x (by simp [idsV, idsO, hx]))
      cases hcf : cloneElemsL es c (i :: vis) with
      | mk es2 rest =>
        obtain ⟨c2, vis2⟩ := rest
        rw [hcf] at hres
        simp only at hres
        obtain ⟨h1, h2, h3⟩ := hres
        simp only [cloneV, if_neg hin, hcf]
        refine ⟨?_, le_trans h2 (Nat.le_succ c2), ?_⟩
        · intro j hj
          simp only [idsV, idsO, List.mem_cons] at hj
          rcases hj with hj | hj
          · exact hj ▸ h2
          · exact h1 j hj
        · intro x hx
          rcases h3 x hx with hx1 | hx1
          · rcases List.mem_cons.mp hx1 with hx2 | hx2
            · exact Or.inr (by simp [idsV, hx2])
            · exact Or.inl hx2
          · exact Or.inr (by simp [idsV, idsO, hx1])
    | larr es =>
      have hres := cloneElemsL_fresh es c (i :: vis)
        hnd2.2
        (fun x hx => by
          simp only [List.mem_cons, not_or]
          exact ⟨fun hxi => hnd2.1 (hxi ▸ hx), hvis x (by simp [idsV, idsO, hx])⟩)
        (fun x hx => hb x (by simp [idsV, idsO, hx]))
      cases hcf : cloneElemsL es c (i :: vis) with
      | mk es2 rest =>
        obtain ⟨c2, vis2⟩ := rest
        rw [hcf] at hres
        simp only at hres
        obtain ⟨h1, h2, h3⟩ := hres
        simp only [cloneV, if_neg hin, hcf]
        refine ⟨?_, le_trans h2 (Nat.le_succ c2), ?_⟩
        · intro j hj
          simp only [idsV, idsO, List.mem_cons] at hj
          rcases hj with hj | hj
          · exact hj ▸ h2
          · exact h1 j hj
        · intro x hx
          rcases h3 x hx with hx1 | hx1
          · rcases List.mem_cons.mp hx1 with hx2 | hx2
            · exact Or.inr (by simp [idsV, hx2])
            · exact Or.inl hx2
          · exact Or.inr (by simp [idsV, idsO, hx1])
    | lobj fs =>
      have hres := cloneFieldsL_fresh fs c (i :: vis)
        hnd2.2
        (fun x hx => by
          simp only [List.mem_cons, not_or]
          exact ⟨fun hxi => hnd2.1 (hxi ▸ hx), hvis x (by simp [idsV, idsO, hx])⟩)
        (fun x hx => hb x (by simp [idsV, idsO, hx]))
      cases hcf : cloneFieldsL fs c (i :: vis) with
      | mk fs2 rest =>
        obtain ⟨c2, vis2⟩ := rest
        rw [hcf] at hres
        simp only at hres
        obtain ⟨h1, h2, h3⟩ := hres
        simp only [cloneV, if_neg hin, hcf]
        refine ⟨?_, le_trans h2 (Nat.le_succ c2), ?_⟩
        · intro j hj
          simp only [idsV, idsO, List.mem_cons] at hj
          rcases hj with hj | hj
          · exact hj ▸ h2
          · exact h1 j hj
        · intro x hx
          rcases h3 x hx with hx1 | hx1
          · rcases List.mem_cons.mp hx1 with hx2 | hx2
            · exact Or.inr (by simp [idsV, hx2])
            · exact Or.inl hx2
          · exact Or.inr (by simp [idsV, idsO, hx1])

theorem cloneMapEntries_fresh : ∀ (es : List (LVal × LVal)) (c : Nat) (vis : List Nat),
    (idsME es).Nodup → (∀ i ∈ idsME es, i ∉ vis) → (∀ i ∈ idsME es, i < c) →
    (∀ j ∈ idsME (cloneMapEntries es c vis).1, c ≤ j)
    ∧ c ≤ (cloneMapEntries es c vis).2.1
    ∧ (∀ x ∈ (cloneMapEntries es c vis).2.2, x ∈ vis ∨ x ∈ idsME es)
  | [], c, vis, _, _, _ => by
    refine ⟨?_, le_refl c, ?_⟩
    · intro j hj; simp [cloneMapEntries, idsME] at hj
    · intro x hx; exact Or.inl (by simpa [cloneMapEntries] using hx)
  | (k, v) :: r, c, vis, hnd, hvis, hb => by
    have hand := List.nodup_append.mp (by simpa [idsME] using hnd)
    have hndk : (idsV k).Nodup := hand.1
    have hndvr := List.nodup_append.mp hand.2.1
    have hk := cloneV_fresh k c vis hndk
      (fun x hx => hvis x (by simp [idsME, hx]))
      (fun x hx => hb x (by simp [idsME, hx]))
    cases hck : cloneV k c vis with
    | mk k2 rest =>
      obtain ⟨c2, vis2⟩ := rest
      rw [hck] at hk
      simp only at hk
      obtain ⟨hk1, hk2, hk3⟩ := hk
      have hv := cloneV_fresh v c2 vis2 hndvr.1
        (fun x hx => by
          intro hxin
          rcases hk3 x hxin with h1 | h1
          · exact hvis x (by simp [idsME, hx]) h1
          · exact (List.disjoint_right.mp hand.2.2 (by simp [hx])) h1)
        (fun x hx => lt_of_lt_of_le (hb x (by simp [idsME, hx])) hk2)
      cases hcv : cloneV v c2 vis2 with
      | mk v2 rest2 =>
        obtain ⟨c3, vis3⟩ := rest2
        rw [hcv] at hv
        simp only at hv
        obtain ⟨hv1, hv2, hv3⟩ := hv
        have hr := cloneMapEntries_fresh r c3 vis3 hndvr.2.1
          (fun x hx => by
            intro hxin
            rcases hv3 x hxin with h1 | h1
            · rcases hk3 x h1 with h2 | h2
              · exact hvis x (by simp [idsME, hx]) h2
              · exact (List.disjoint_right.mp hand.2.2 (by simp [hx])) h2
            · exact (List.disjoint_right.mp hndvr.2.2 hx) h1)
          (fun x hx => lt_of_lt_of_le (hb x (by simp [idsME, hx])) (le_trans hk2 hv2))
        cases hcr : cloneMapEntries r c3 vis3 with
        | mk r2 rest3 =>
          obtain ⟨c4, vis4⟩ := rest3
          rw [hcr] at hr
          simp only at hr
          obtain ⟨hr1, hr2, hr3⟩ := hr
          simp only [cloneMapEntries, hck, hcv, hcr]
          refine ⟨?_, le_trans hk2 (le_trans hv2 hr2), ?_⟩
          · intro j hj
            simp only [idsME, List.mem_append] at hj
            rcases hj with (hj | hj) | hj
            · exact hk1 j hj
            · exact le_trans hk2 (hv1 j hj)
            · exact le_trans hk2 (le_trans hv2 (hr1 j hj))
          · intro x hx
            rcases hr3 x hx with h1 | h1
            · rcases hv3 x h1 with h2 | h2
              · rcases hk3 x h2 with h3 | h3
                · exact Or.inl h3
                · exact Or.inr (by simp [idsME, h3])
              · exact Or.inr (by simp [idsME, h2])
            · exact Or.inr (by simp [idsME, h1])

theorem cloneElemsL_fresh : ∀ (es : List LVal) (c : Nat) (vis : List Nat),
    (idsL es).Nodup → (∀ i ∈ idsL es, i ∉ vis) → (∀ i ∈ idsL es, i < c) →
    (∀ j ∈ idsL (cloneElemsL es c vis).1, c ≤ j)
    ∧ c ≤ (cloneElemsL es c vis).2.1
    ∧ (∀ x ∈ (cloneElemsL es c vis).2.2, x ∈ vis ∨ x ∈ idsL es)
  | [], c, vis, _, _, _ => by
    refine ⟨?_, le_refl c, ?_⟩
    · intro j hj; simp [cloneElemsL, idsL] at hj
    · intro x hx; exact Or.inl (by simpa [cloneElemsL] using hx)
  | x :: r, c, vis, hnd, hvis, hb => by
    have hand := List.nodup_append.mp (by simpa [idsL] using hnd)
    have hx0 := cloneV_fresh x c vis hand.1
      (fun y hy => hvis y (by simp [idsL, hy]))
      (fun y hy => hb y (by simp [idsL, hy]))
    cases hcx : cloneV x c vis with
    | mk x2 rest =>
      obtain ⟨c2, vis2⟩ := rest
      rw [hcx] at hx0
      simp only at hx0
      obtain ⟨h1, h2, h3⟩ := hx0
      have hr := cloneElemsL_fresh r c2 vis2 hand.2.1
        (fun y hy => by
          intro hyin
          rcases h3 y hyin with hz | hz
          · exact hvis y (by simp [idsL, hy]) hz
          · exact (List.disjoint_right.mp hand.2.2 hy) hz)
        (fun y hy => lt_of_lt_of_le (hb y (by simp [idsL, hy])) h2)
      cases hcr : cloneElemsL r c2 vis2 with
      | mk r2 rest2 =>
        obtain ⟨c3, vis3⟩ := rest2
        rw [hcr] at hr
        simp only at hr
        obtain ⟨hr1, hr2, hr3⟩ := hr
        simp only [cloneElemsL, hcx, hcr]
        refine ⟨?_, le_trans h2 hr2, ?_⟩
        · intro j hj
          simp only [idsL, List.mem_append] at hj
          rcases hj with hj | hj
          · exact h1 j hj
          · exact le_trans h2 (hr1 j hj)
        · intro y hy
          rcases hr3 y hy with hz | hz
          · rcases h3 y hz with hw | hw
            · exact Or.inl hw
            · exact Or.inr (by simp [idsL, hw])
          · exact Or.inr (by simp [idsL, hz])

theorem cloneFieldsL_fresh : ∀ (fs : List (String × LVal)) (c : Nat) (vis : List Nat),
    (idsF fs).Nodup → (∀ i ∈ idsF fs, i ∉ vis) → (∀ i ∈ idsF fs, i < c) →
    (∀ j ∈ idsF (cloneFieldsL fs c vis).1, c ≤ j)
    ∧ c ≤ (cloneFieldsL fs c vis).2.1
    ∧ (∀ x ∈ (cloneFieldsL fs c vis).2.2, x ∈ vis ∨ x ∈ idsF fs)
  | [], c, vis, _, _, _ => by
    refine ⟨?_, le_refl c, ?_⟩
    · intro j hj; simp [cloneFieldsL, idsF] at hj
    · intro x hx; exact Or.inl (by simpa [cloneFieldsL] using hx)
  | (k, v) :: r, c, vis, hnd, hvis, hb => by
    have hand := List.nodup_append.mp (by simpa [idsF] using hnd)
    have hv0 := cloneV_fresh v c vis hand.1
      (fun y hy => hvis y (by simp [idsF, hy]))
      (fun y hy => hb y (by simp [idsF, hy]))
    cases hcv : cloneV v c vis with
    | mk v2 rest =>
      obtain ⟨c2, vis2⟩ := rest
      rw [hcv] at hv0
      simp only at hv0
      obtain ⟨h1, h2, h3⟩ := hv0
      have hr := cloneFieldsL_fresh r c2 vis2 hand.2.1
        (fun y hy => by
          intro hyin
          rcases h3 y hyin with hz | hz
          · exact hvis y (by simp [idsF, hy]) hz
          · exact (List.disjoint_right.mp hand.2.2 hy) hz)
        (fun y hy => lt_of_lt_of_le (hb y (by simp [idsF, hy])) h2)
      cases hcr : cloneFieldsL r c2 vis2 with
      | mk r2 rest2 =>
        obtain ⟨c3, vis3⟩ := rest2
        rw [hcr] at hr
        simp only at hr
        obtain ⟨hr1, hr2, hr3⟩ := hr
        simp only [cloneFieldsL, hcv, hcr]
        refine ⟨?_, le_trans h2 hr2, ?_⟩
        · intro j hj
          simp only [idsF, List.mem_append] at hj
          rcases hj with hj | hj
          · exact h1 j hj
          · exact le_trans h2 (hr1 j hj)
        · intro y hy
          rcases hr3 y hy with hz | hz
          · rcases h3 y hz with hw | hw
            · exact Or.inl hw
            · exact Or.inr (by simp [idsF, hw])
          · exact Or.inr (by simp [idsF, hz])

end

end VP

namespace VP

open JVal

/-! ### Path normalization (src/persistedPlugin.ts, lines 146 to 164)

Each element of `options.paths` is a bare string, a plain-object
override (here: its `paths` list, the only part the partition claim is
about), or some other value, which `isPlainObject` rejects and the
normalizer silently drops.  Bare strings are pushed, deduplicated, onto
one implicit group; overrides each become their own group; the implicit
group is pushed last. -/

inductive PEntry where
  | pstr (s : String) : PEntry
  | pgrp (paths : List String) : PEntry
  | pother : PEntry

/-- The `paths.forEach` loop: threads the explicit-group list and the
implicit group's deduplicated bare-string list. -/
def collectGroups : List PEntry → List (List String) → List String →
    List (List String) × List String
  | [], expl, bare => (expl, bare)
  | PEntry.pstr s :: r, expl, bare =>
      collectGroups r expl (if s ∈ bare then bare else bare ++ [s])
  | PEntry.pgrp g :: r, expl, bare => collectGroups r (expl ++ [g]) bare
  | PEntry.pother :: r, expl, bare => collectGroups r expl bare

/-- The normalized path lists: every explicit group's list in order,
then the implicit group's list (`unifyPaths.push(unifyStringPath)`). -/
def normPaths (es : List PEntry) : List (List String) :=
  (collectGroups es [] []).1 ++ [(collectGroups es [] []).2]

/-- A path string named somewhere in the configuration: as a bare entry
or inside an explicit override's path list. -/
def namedIn (es : List PEntry) (s : String) : Prop :=
  PEntry.pstr s ∈ es ∨ ∃ g, PEntry.pgrp g ∈ es ∧ s ∈ g

/-- The explicit groups of a configuration, in order. -/
def explGroups : List PEntry → List (List String)
  | [] => []
  | PEntry.pgrp g :: r => g :: explGroups r
  | _ :: r => explGroups r

theorem collectGroups_fst : ∀ (es : List PEntry) (expl : List (List String))
    (bare : List String), (collectGroups es expl bare).1 = expl ++ explGroups es
  | [], expl, bare => by simp [collectGroups, explGroups]
  | PEntry.pstr s :: r, expl, bare => by
    simp [collectGroups, explGroups, collectGroups_fst r]
  | PEntry.pgrp g :: r, expl, bare => by
    simp [collectGroups, explGroups, collectGroups_fst r]
  | PEntry.pother :: r, expl, bare => by
    simp [collectGroups, explGroups, collectGroups_fst r]

theorem collectGroups_snd_mem : ∀ (es : List PEntry) (expl : List (List String))
    (bare : List String) (s : String),
    (s ∈ (collectGroups es expl bare).2) ↔ (s ∈ bare ∨ PEntry.pstr s ∈ es)
  | [], expl, bare, s => by simp [collectGroups]
  | PEntry.pstr s2 :: r, expl, bare, s => by
    rw [collectGroups, collectGroups_snd_mem r]
    by_cases h2 : s2 ∈ bare
    · simp only [if_pos h2, List.mem_cons, PEntry.pstr.injEq]
      constructor
      · rintro (h | h)
        · exact Or.inl h
        · exact Or.inr (Or.inr h)
      · rintro (h | (h | h))
        · exact Or.inl h
        · exact Or.inl (h ▸ h2)
        · exact Or.inr h
    · simp only [if_neg h2, List.mem_append, List.mem_cons, List.not_mem_nil, or_false,
        PEntry.pstr.injEq]
      tauto
  | PEntry.pgrp g :: r, expl, bare, s => by
    rw [collectGroups, collectGroups_snd_mem r]
    simp
  | PEntry.pother :: r, expl, bare, s => by
    rw [collectGroups, collectGroups_snd_mem r]
    simp

/-- Number of explicit groups of the configuration containing `s`. -/
def grpCount (es : List PEntry) (s : String) : Nat :=
  es.countP (fun e =>
    match e with
    | PEntry.pgrp g => decide (s ∈ g)
    | _ => false)

theorem countP_explGroups : ∀ (es : List PEntry) (s : String),
    (explGroups es).countP (fun l => decide (s ∈ l)) = grpCount es s
  | [], s => rfl
  | PEntry.pstr s2 :: r, s => by
    simp only [explGroups, grpCount, List.countP_cons]
    simpa [grpCount] using countP_explGroups r s
  | PEntry.pgrp g :: r, s => by
    simp only [explGroups, grpCount, List.countP_cons]
    have h2 := countP_explGroups r s
    simp only [grpCount] at h2
    rw [h2]
  | PEntry.pother :: r, s => by
    simp only [explGroups, grpCount, List.countP_cons]
    simpa [grpCount] using countP_explGroups r s

end VP

namespace VP

open JVal

theorem mergeVal_obj_ne (acc : List (String × JVal)) {bE : List (String × JVal)}
    (h : bE ≠ []) : mergeVal acc (vObj bE) = mergeEntries acc bE := by
  unfold mergeVal
  cases bE with
  | nil => exact absurd rfl h
  | cons p r => simp [isEmptyJ, entriesJ]

/-- Spec-side write-safety condition: walking the path, every value
already present at a non-final segment is either falsy (it will be
replaced by a fresh object) or a plain object (the walk descends), and
the final assignment's receiver is a plain object. -/
def writeOk : JVal → List String → Bool
  | t, [] => true
  | t, [_] => isPlainObject t
  | t, k :: k2 :: rest =>
      isPlainObject t &&
        (if truthy (getProp t k) then writeOk (getProp t k) (k2 :: rest) else true)

theorem setPath_fresh : ∀ (segs : List String) (v : JVal), segs ≠ [] →
    (setPath (vObj []) segs v).isSome = true
  | [], _, hne => absurd rfl hne
  | [k], v, _ => by simp [setPath, setProp]
  | k :: k2 :: rest, v, _ => by
    simp only [setPath, getProp, getKey, Option.getD_none, truthy, Bool.false_eq_true,
      if_false, if_neg]
    cases hin : setPath (vObj []) (k2 :: rest) v with
    | none =>
      have := setPath_fresh (k2 :: rest) v (by simp)
      rw [hin] at this
      simp at this
    | some inner => simp [setProp]

theorem setPath_of_writeOk : ∀ (segs : List String) (t v : JVal), segs ≠ [] →
    writeOk t segs = true → (setPath t segs v).isSome = true
  | [], _, _, hne, _ => absurd rfl hne
  | [k], t, v, _, hok => by
    cases t with
    | vObj kvs => simp [setPath, setProp]
    | vUndef => simp [writeOk, isPlainObject] at hok
    | vNull => simp [writeOk, isPlainObject] at hok
    | vBool b => simp [writeOk, isPlainObject] at hok
    | vNum n => simp [writeOk, isPlainObject] at hok
    | vStr s => simp [writeOk, isPlainObject] at hok
    | vArr xs => simp [writeOk, isPlainObject] at hok
  | k :: k2 :: rest, t, v, _, hok => by
    simp only [writeOk, Bool.and_eq_true] at hok
    obtain ⟨hobj, hcond⟩ := hok
    cases t with
    | vObj kvs =>
      simp only [setPath]
      by_cases htr : truthy (getProp (vObj kvs) k) = true
      · rw [if_pos htr] at hcond ⊢
        have := setPath_of_writeOk (k2 :: rest) (getProp (vObj kvs) k) v (by simp) hcond
        cases hin : setPath (getProp (vObj kvs) k) (k2 :: rest) v with
        | none => rw [hin] at this; simp at this
        | some inner => simp [setProp]
      · simp only [Bool.not_eq_true] at htr
        rw [htr]
        simp only [Bool.false_eq_true, if_false, if_neg]
        have := setPath_fresh (k2 :: rest) v (by simp)
        cases hin : setPath (vObj []) (k2 :: rest) v with
        | none => rw [hin] at this; simp at this
        | some inner => simp [setProp]
    | vUndef => simp [isPlainObject] at hobj
    | vNull => simp [isPlainObject] at hobj
    | vBool b => simp [isPlainObject] at hobj
    | vNum n => simp [isPlainObject] at hobj
    | vStr s => simp [isPlainObject] at hobj
    | vArr xs => simp [isPlainObject] at hobj

/-! ### Claim C4 -/

/-- C4: merge right-bias.  `deepMerge` processes its arguments left to
right (it is a left fold of `mergeVal`), and for two objects `a`, `b`
and a key `k` present in both whose value in `b` is not a plain object,
the merged record holds exactly `b[k]` at `k`: the later object wins on
scalar conflicts. -/
theorem C4_merge_right_bias (aE bE : List (String × JVal)) (k : String) (v : JVal)
    (hina : hasKey aE k = true) (hnd : nodupKeys bE = true)
    (hmem : getKey bE k = some v) (hnp : isPlainObject v = false) :
    getProp (deepMerge [vObj aE, vObj bE]) k = v := by
  have hne : bE ≠ [] := by
    intro h
    rw [h] at hmem
    simp [getKey] at hmem
  show getProp (vObj (mergeVal (mergeVal [] (vObj aE)) (vObj bE))) k = v
  rw [mergeVal_obj_ne _ hne]
  have hk := getKey_mergeEntries_mem bE (mergeVal [] (vObj aE)) k v hnd hmem
  have hstep : mergeStepVal (getKey (mergeVal [] (vObj aE)) k) v = v := by
    cases v with
    | vObj o => simp [isPlainObject] at hnp
    | vUndef => rfl
    | vNull => rfl
    | vBool b => rfl
    | vNum n => rfl
    | vStr s => rfl
    | vArr xs => rfl
  simp [getProp, hk, hstep]

theorem C4_witness :
    getProp (deepMerge [vObj [("k", vNum 1)], vObj [("k", vNum 2)]]) "k" = vNum 2 :=
  C4_merge_right_bias [("k", vNum 1)] [("k", vNum 2)] "k" (vNum 2) rfl rfl rfl rfl

/-! ### Claim C9 -/

theorem arrEntriesFrom_fst : ∀ (xs : List JVal) (i : Nat),
    (arrEntriesFrom i xs).map Prod.fst =
      (List.range xs.length).map (fun j => Nat.repr (i + j))
  | [], i => by simp [arrEntriesFrom]
  | x :: r, i => by
    simp only [arrEntriesFrom, List.map_cons, List.length_cons,
      List.range_succ_eq_map, List.map_map]
    rw [arrEntriesFrom_fst r (i + 1)]
    refine List.cons_eq_cons.mpr ⟨by simp, ?_⟩
    apply List.map_congr_left
    intro j hj
    show Nat.repr (i + 1 + j) = Nat.repr (i + Nat.succ j)
    congr 1
    omega

theorem hasKey_arrEntriesFrom_lt : ∀ (xs : List JVal) (i j : Nat), j < i →
    hasKey (arrEntriesFrom i xs) (Nat.repr j) = false
  | [], _, _, _ => rfl
  | x :: r, i, j, h => by
    simp only [arrEntriesFrom, hasKey, Bool.or_eq_false_iff]
    constructor
    · simp only [beq_eq_false_iff_ne, ne_eq]
      intro hc
      have := reprNat_inj hc
      omega
    · exact hasKey_arrEntriesFrom_lt r (i + 1) j (by omega)

theorem nrE_arrEntriesFrom : ∀ (xs : List JVal) (i : Nat), wfElems xs = true →
    nrE (arrEntriesFrom i xs) = true
  | [], _, _ => rfl
  | x :: r, i, h => by
    simp only [wfElems, Bool.and_eq_true] at h
    simp only [arrEntriesFrom, nrE, Bool.and_eq_true, Bool.not_eq_true']
    exact ⟨⟨hasKey_arrEntriesFrom_lt r (i + 1) i (by omega), nrJ_of_wf h.1⟩,
      nrE_arrEntriesFrom r (i + 1) h.2⟩

/-- C9: a non-empty array handed to `deepMerge` is neither skipped nor
kept as an array: its elements are spread as the decimal string-index
keys "0", "1", ... of a bare plain record, and `deepMerge` never returns
an array at all. -/
theorem C9_array_spread (xs : List JVal) (hne : xs ≠ [])
    (hwf : wfJ (vArr xs) = true) :
    deepMerge [vArr xs] = vObj (arrEntriesFrom 0 xs)
    ∧ (arrEntriesFrom 0 xs).map Prod.fst = (List.range xs.length).map Nat.repr
    ∧ ∀ objs : List JVal, ∃ kvs, deepMerge objs = vObj kvs := by
  refine ⟨?_, ?_, fun objs => ⟨objs.foldl mergeVal [], rfl⟩⟩
  · show vObj (mergeVal [] (vArr xs)) = vObj (arrEntriesFrom 0 xs)
    unfold mergeVal
    cases xs with
    | nil => exact absurd rfl hne
    | cons x r =>
      simp only [isEmptyJ, List.isEmpty_cons, Bool.false_eq_true, if_false, if_neg,
        entriesJ]
      rw [mergeEntries_norm_of_nr _ (nrE_arrEntriesFrom (x :: r) 0 (by simpa [wfJ] using hwf))]
  · rw [arrEntriesFrom_fst xs 0]
    apply List.map_congr_left
    intro j _
    simp

theorem C9_witness :
    deepMerge [vArr [vNum 7]] = vObj (arrEntriesFrom 0 [vNum 7])
    ∧ (arrEntriesFrom 0 [vNum 7]).map Prod.fst = (List.range 1).map Nat.repr
    ∧ ∀ objs : List JVal, ∃ kvs, deepMerge objs = vObj kvs :=
  C9_array_spread [vNum 7] (by simp) rfl

/-! ### Claim C10 -/

/-- C10: a falsy value already bound at a non-final path segment is
discarded and replaced by a fresh empty object before descending — the
write proceeds exactly as if the binding had been a fresh `{}`. -/
theorem C10_falsy_intermediate_replaced (kvs : List (String × JVal))
    (k k2 : String) (rest : List String) (v f : JVal)
    (hget : getKey kvs k = some f) (hfalsy : truthy f = false) :
    setPath (vObj kvs) (k :: k2 :: rest) v =
      (setPath (vObj []) (k2 :: rest) v).map
        (fun inner => vObj (setKey kvs k inner)) := by
  simp only [setPath, getProp, hget, Option.getD_some, hfalsy, Bool.false_eq_true,
    if_false, if_neg]
  cases hin : setPath (vObj []) (k2 :: rest) v with
  | none => simp
  | some inner => simp [setProp]

theorem C10_witness :
    setPath (vObj [("a", vNum 0)]) ["a", "b"] (vNum 1) =
      (setPath (vObj []) ["b"] (vNum 1)).map
        (fun inner => vObj (setKey [("a", vNum 0)] "a" inner)) :=
  C10_falsy_intermediate_replaced [("a", vNum 0)] "a" "b" [] (vNum 1) (vNum 0) rfl rfl

/-! ### Claim C7 -/

theorem getPath_append (t : JVal) (xs ys : List String) :
    getPath t (xs ++ ys) = getPath (getPath t xs) ys := by
  simp [getPath, List.foldl_append]

/-- C7 counterexample: the claim says the read returns undefined or null
as soon as an intermediate segment is missing or not an object, but with
`target = ((a, 0))` and path "a.b" the fold `obj && obj[key]` carries
the falsy intermediate `0` to the end and returns it: the result is `0`,
neither undefined nor null. -/
theorem C7_cx :
    getValueByReference (vObj [("a", vNum 0)]) "a.b" = vNum 0
    ∧ vNum 0 ≠ vUndef ∧ vNum 0 ≠ vNull := by
  refine ⟨rfl, ?_, ?_⟩ <;> simp

/-- C7 (amended): the read splits on "." and folds `obj && obj[key]`;
as soon as an intermediate value is falsy, that very value (undefined,
null, false, 0 or "") is carried unchanged to the result; a truthy
number or boolean intermediate dereferences to undefined, which then
propagates, so the result is undefined. -/
theorem C7_falsy_propagation :
    (∀ (t : JVal) (pre post : List String), truthy (getPath t pre) = false →
      getPath t (pre ++ post) = getPath t pre)
    ∧ (∀ (t : JVal) (pre : List String) (k : String) (post : List String) (n : Int),
        getPath t pre = vNum n → n ≠ 0 → getPath t (pre ++ k :: post) = vUndef)
    ∧ (∀ (t : JVal) (pre : List String) (k : String) (post : List String),
        getPath t pre = vBool true → getPath t (pre ++ k :: post) = vUndef) := by
  refine ⟨?_, ?_, ?_⟩
  · intro t pre post h
    rw [getPath_append]
    exact getPath_falsy post _ h
  · intro t pre k post n h hn
    rw [getPath_append, h, getPath_cons]
    have htr : truthy (vNum n) = true := by simpa [truthy] using hn
    rw [htr]
    simp only [if_true]
    have : getProp (vNum n) k = vUndef := rfl
    rw [this]
    exact getPath_falsy post vUndef rfl
  · intro t pre k post h
    rw [getPath_append, h, getPath_cons]
    simp only [truthy, if_true]
    have : getProp (vBool true) k = vUndef := rfl
    rw [this]
    exact getPath_falsy post vUndef rfl

theorem C7_witness :
    getPath (vObj [("a", vNum 0)]) (["a"] ++ ["b"]) = getPath (vObj [("a", vNum 0)]) ["a"]
    ∧ getPath (vObj [("a", vNum 7)]) (["a"] ++ ["b"]) = vUndef :=
  ⟨C7_falsy_propagation.1 (vObj [("a", vNum 0)]) ["a"] ["b"] rfl,
   C7_falsy_propagation.2.1 (vObj [("a", vNum 7)]) ["a"] "b" [] 7 rfl (by norm_num)⟩

end VP

namespace VP

open JVal

/-! ### Claim C6 -/

/-- C6 counterexample: the claim says the write always succeeds because
missing or non-object intermediates are replaced by fresh objects, but
the replacement `obj[key] = obj[key] || ((:))` keeps a truthy primitive
intermediate, and the subsequent property assignment on the number `7`
throws in strict mode: the write does not succeed. -/
theorem C6_cx :
    setValueByReference (vObj [("a", vNum 7)]) "a.b" (vNum 1) = none := rfl

/-- A property assignment whose receiver is an array always succeeds:
arrays are extensible objects, so in strict mode `arr[key] = v` is a
legal write (an index write updates the slot, any other key is an
expando the model drops). -/
theorem setProp_arr_isSome (xs : List JVal) (k : String) (v : JVal) :
    (setProp (vArr xs) k v).isSome = true := by
  simp only [setProp]
  cases canonIndex k <;> rfl

/-- A two-segment write whose intermediate is a truthy array succeeds:
the walk keeps the array and the final assignment on it is legal. -/
theorem setPath_arr_mid (kvs : List (String × JVal)) (k k2 : String)
    (xs : List JVal) (v : JVal) (hget : getKey kvs k = some (vArr xs)) :
    (setPath (vObj kvs) [k, k2] v).isSome = true := by
  simp only [setPath, getProp, hget, Option.getD_some, truthy, if_true]
  have harr := setProp_arr_isSome xs k2 v
  cases hsp : setProp (vArr xs) k2 v with
  | none =>
    rw [hsp] at harr
    simp at harr
  | some inner => simp [setProp]

/-- C6 (amended): the walk `obj[key] = obj[key] || ((:))` only replaces
falsy intermediates, so writes are not total: a truthy primitive
intermediate is kept and the subsequent assignment on it throws in
strict mode (see the counterexample).  Writes into a fresh empty object
always succeed; a write succeeds whenever every truthy value met before
the final segment is a plain object (`writeOk`) — a sufficient but not
necessary condition, since a write through a truthy array intermediate
also succeeds; and `reducerState` succeeds whenever every projected path
fully resolves in the source state. -/
theorem C6_write_totality :
    (∀ (segs : List String) (v : JVal), segs ≠ [] →
      (setPath (vObj []) segs v).isSome = true)
    ∧ (∀ (t : JVal) (segs : List String) (v : JVal), segs ≠ [] →
        writeOk t segs = true → (setPath t segs v).isSome = true)
    ∧ (∀ (S : JVal) (P : List String),
        (∀ p ∈ P, (jpGet S (splitDots p)).isSome = true) →
        (reducerState S P).isSome = true)
    ∧ (∃ t : JVal, ∃ segs : List String, ∃ v : JVal,
        writeOk t segs = false ∧ (setPath t segs v).isSome = true) := by
  refine ⟨setPath_fresh, fun t segs v hne hok => setPath_of_writeOk segs t v hne hok,
    ?_, ⟨vObj [("a", vArr [])], ["a", "b"], vNum 1, rfl,
      setPath_arr_mid [("a", vArr [])] "a" "b" [] (vNum 1) rfl⟩⟩
  intro S P hres
  cases P with
  | nil => rfl
  | cons p P' =>
    have h0 := hres p (List.mem_cons_self _ _)
    obtain ⟨w, hw⟩ := Option.isSome_iff_exists.mp h0
    cases hsp : splitDots p with
    | nil => exact absurd hsp (splitDots_ne_nil p)
    | cons k r =>
      rw [hsp] at hw
      obtain ⟨sk, u, hS, _, _⟩ := jpGet_some_obj hw
      subst hS
      have hpart : Part (vObj []) (vObj sk) :=
        part_obj_of_point (fun k2 v2 hg => by simp [getKey] at hg)
      obtain ⟨T, hT, _, _, _⟩ := reducer_fold (p :: P') (vObj []) (vObj sk) hpart hres
      show (reducerState (vObj sk) (p :: P')).isSome = true
      have hTr : reducerState (vObj sk) (p :: P') = some T := hT
      rw [hTr]
      rfl

theorem C6_witness :
    (setPath (vObj []) ["a", "b"] (vNum 1)).isSome = true
    ∧ (setPath (vObj [("a", vObj [])]) ["a", "b"] (vNum 1)).isSome = true
    ∧ (reducerState (vObj [("a", vNum 3)]) ["a"]).isSome = true :=
  ⟨C6_write_totality.1 ["a", "b"] (vNum 1) (by simp),
   C6_write_totality.2.1 (vObj [("a", vObj [])]) ["a", "b"] (vNum 1) (by simp) rfl,
   C6_write_totality.2.2.1 (vObj [("a", vNum 3)]) ["a"]
     (by intro p hp; simp at hp; subst hp; rfl)⟩

/-! ### Claim C5 -/

/-- C5 counterexample: the claim says projecting a state and projecting
the projection along the same paths gives back the same object, but with
state `((a, 7))` and paths `["a", "a.b"]` the first projection already
throws: `reducerState` copies `a` (the number 7) and then the write for
"a.b" assigns a property on that number, which throws in strict mode, so
the round trip does not hold as stated. -/
theorem C5_cx : reducerState (vObj [("a", vNum 7)]) ["a", "a.b"] = none := rfl

/-- C5 (amended): on a wellformed state and a path list whose every path
fully resolves (every segment walks through existing object bindings),
`reducerState` succeeds with a projection `T`, and projecting
`deepMerge((:), T)` — the rehydrated stored value — along the same paths
gives back exactly `T`: the projection is a fixed point of the
save/restore round trip. -/
theorem C5_round_trip (S : JVal) (P : List String) (hwf : wfJ S = true)
    (hres : ∀ p ∈ P, (jpGet S (splitDots p)).isSome = true) :
    ∃ T, reducerState S P = some T
      ∧ reducerState (deepMerge [vObj [], T]) P = some T := by
  cases P with
  | nil => exact ⟨vObj [], rfl, rfl⟩
  | cons p0 P' =>
    have h0 := hres p0 (List.mem_cons_self _ _)
    obtain ⟨w0, hw0⟩ := Option.isSome_iff_exists.mp h0
    cases hsp : splitDots p0 with
    | nil => exact absurd hsp (splitDots_ne_nil p0)
    | cons k r =>
      rw [hsp] at hw0
      obtain ⟨sk, u, hS, _, _⟩ := jpGet_some_obj hw0
      subst hS
      have hpart : Part (vObj []) (vObj sk) :=
        part_obj_of_point (fun k2 v2 hg => by simp [getKey] at hg)
      obtain ⟨T, hT, hpartT, _, hpaths⟩ :=
        reducer_fold (p0 :: P') (vObj []) (vObj sk) hpart hres
      have hTfold : reducerState (vObj sk) (p0 :: P') = some T := hT
      have hwfT : wfJ T = true :=
        reducer_fold_wf (p0 :: P') (vObj []) (vObj sk) T rfl hwf hT
      obtain ⟨tk, hTk⟩ := part_of_obj hpartT
      have hmerge : deepMerge [vObj [], T] = T := by
        rw [hTk]
        exact deepMerge_norm_single tk (hTk ▸ hwfT)
      refine ⟨T, hTfold, ?_⟩
      rw [hmerge]
      have hvals : ∀ p ∈ p0 :: P',
          getPath T (splitDots p) = getPath (vObj sk) (splitDots p) := by
        intro p hp
        have hj := hpaths p hp
        obtain ⟨w, hw⟩ := Option.isSome_iff_exists.mp (hres p hp)
        rw [hw] at hj
        rw [jpGet_getPath _ _ _ hj, jpGet_getPath _ _ _ hw]
      show List.foldlM
          (fun a p => setPath a (splitDots p) (getPath T (splitDots p)))
          (vObj []) (p0 :: P') = some T
      rw [reducer_congr (p0 :: P') (vObj []) T (vObj sk) hvals]
      exact hTfold

theorem C5_witness :
    ∃ T, reducerState (vObj [("a", vNum 3)]) ["a"] = some T
      ∧ reducerState (deepMerge [vObj [], T]) ["a"] = some T :=
  C5_round_trip (vObj [("a", vNum 3)]) ["a"] rfl
    (by intro p hp; simp at hp; subst hp; rfl)

end VP

namespace VP

open JVal

/-! ### Claim C1 -/

/-- C1 counterexample: the no-payload reset replaces the live state with
`deepMerge(state, initState)`, which is not the attach-time snapshot
when the current state has keys the snapshot lacks: with current state
`((a, 5))` and snapshot `(())` the replacement keeps `a = 5`. -/
theorem C1_cx :
    (resetFull [] (vObj [("a", vNum 5)]) (vObj [])).2 = vObj [("a", vNum 5)]
    ∧ vObj [("a", vNum 5)] ≠ vObj [] := by
  refine ⟨?_, by simp⟩
  show vObj (mergeVal (mergeVal [] (vObj [("a", vNum 5)])) (vObj [])) =
    vObj [("a", vNum 5)]
  rw [mergeVal_nil_obj [("a", vNum 5)] rfl]
  simp [mergeVal, isEmptyJ]

/-- C1 (as amended): the no-payload branch of the reset subscriber emits
exactly one `removeState` effect per persistence group — so every
group's persisted entry is gone from storage afterwards — and replaces
the live state with `deepMerge(state, initState)`; that replacement
equals the attach-time snapshot whenever the current state still has the
same nested key structure as the snapshot. -/
theorem C1_full_reset (groups : List PGroup) (state init : JVal) (env : Env) :
    (resetFull groups state init).1 =
      groups.map (fun g => Effect.remState g.storage g.storageKey)
    ∧ (resetFull groups state init).2 = deepMerge [state, init]
    ∧ (∀ g ∈ groups,
        envGet (applyEffects env (resetFull groups state init).1)
          g.storage g.storageKey = none)
    ∧ (∀ ik, init = vObj ik → wfJ state = true → wfJ init = true →
        ssJ state init = true → (resetFull groups state init).2 = init) := by
  refine ⟨rfl, rfl, ?_, ?_⟩
  · intro g hg
    exact removes_clear groups env g hg
  · intro ik hik hwfS hwfI hss
    subst hik
    cases state with
    | vObj sk =>
      have hssE : ssE sk ik = true := by simpa [ssJ] using hss
      show deepMerge [vObj sk, vObj ik] = vObj ik
      show vObj (mergeVal (mergeVal [] (vObj sk)) (vObj ik)) = vObj ik
      rw [mergeVal_nil_obj sk hwfS]
      cases ik with
      | nil =>
        cases sk with
        | nil => rfl
        | cons p r => simp [ssE] at hssE
      | cons p r =>
        have hwi : nodupKeys (p :: r) = true ∧ wfEntries (p :: r) = true := by
          simpa [wfJ, Bool.and_eq_true] using hwfI
        have hws : nodupKeys sk = true ∧ wfEntries sk = true := by
          simpa [wfJ, Bool.and_eq_true] using hwfS
        rw [mergeVal_obj_ne sk (by simp), mergeEntries_of_ext sk (p :: r)
          (nrE_of_wf sk hws.1 hws.2) (nrE_of_wf _ hwi.1 hwi.2)
          (extE_of_ssE sk (p :: r) hssE)]
    | vUndef => simp [ssJ] at hss
    | vNull => simp [ssJ] at hss
    | vBool b => simp [ssJ] at hss
    | vNum n => simp [ssJ] at hss
    | vStr s => simp [ssJ] at hss
    | vArr xs => simp [ssJ] at hss

theorem C1_witness :
    envGet (applyEffects []
        (resetFull [⟨0, "K", ["a"]⟩] (vObj [("a", vNum 5)]) (vObj [("a", vNum 1)])).1)
      0 "K" = none
    ∧ (resetFull [⟨0, "K", ["a"]⟩] (vObj [("a", vNum 5)]) (vObj [("a", vNum 1)])).2
      = vObj [("a", vNum 1)] :=
  ⟨(C1_full_reset [⟨0, "K", ["a"]⟩] (vObj [("a", vNum 5)]) (vObj [("a", vNum 1)])
      []).2.2.1 ⟨0, "K", ["a"]⟩ (by simp),
   (C1_full_reset [⟨0, "K", ["a"]⟩] (vObj [("a", vNum 5)]) (vObj [("a", vNum 1)])
      []).2.2.2 [("a", vNum 1)] rfl rfl rfl rfl⟩

/-! ### Claim C2 -/

/-- C2 counterexample: with current state `((a, 5))`, snapshot
`((a, ((b, 1))))` and payload `["a.b"]`, the payload branch yields the
new state `((a, ((b, 1))))`: the location `a` — named by no payload path
— changes from `5` to the object `((b, 1))`, so locations outside the
payload are not all preserved. -/
theorem C2_cx :
    resetScoped [] [] (vObj [("a", vNum 5)]) (vObj [("a", vObj [("b", vNum 1)])])
        ["a.b"]
      = some ([], vObj [("a", vObj [("b", vNum 1)])])
    ∧ getPath (vObj [("a", vNum 5)]) ["a"] = vNum 5
    ∧ getPath (vObj [("a", vObj [("b", vNum 1)])]) ["a"] = vObj [("b", vNum 1)]
    ∧ vObj [("b", vNum 1)] ≠ vNum 5 := by
  refine ⟨?_, rfl, rfl, by simp⟩
  have hred : reducerState (vObj [("a", vObj [("b", vNum 1)])]) ["a.b"]
      = some (vObj [("a", vObj [("b", vNum 1)])]) := rfl
  have hm1 : deepMerge [vObj [("a", vNum 5)], vObj [("a", vObj [("b", vNum 1)])]]
      = vObj [("a", vObj [("b", vNum 1)])] := by
    show vObj (mergeVal (mergeVal [] (vObj [("a", vNum 5)]))
      (vObj [("a", vObj [("b", vNum 1)])])) = vObj [("a", vObj [("b", vNum 1)])]
    rw [mergeVal_nil_obj [("a", vNum 5)] rfl]
    simp [mergeVal, isEmptyJ, entriesJ, mergeEntries_cons, mergeEntries,
      mergeStepVal, getKey, setKey]
  have hm2 : deepMerge [vObj [("a", vNum 5)], vObj [("a", vObj [("b", vNum 1)])]]
      = vObj [("a", vObj [("b", vNum 1)])] := hm1
  simp only [resetScoped, hred, deepCloneJ_id, hm1, hm2]
  rfl

/-- C2 (as amended): the payload branch replaces the live state with
`deepMerge(deepClone(state), reducerState(initState, payload))` — the
extra outer `deepMerge(state, ·)` of the code is absorbed.  Payload
locations revert to their attach-time values when every payload path
resolves in the snapshot down to a non-object leaf, and a top-level
location whose head key is named by no payload path keeps its current
value; the claim's unconditional preservation of non-payload locations
fails (see the counterexample). -/
theorem C2_scoped_reset (groups : List PGroup) (env : Env) (state init : JVal)
    (P : List String) (proj : JVal) (effs : List Effect) (ns : JVal)
    (hwfS : wfJ state = true) (hwfI : wfJ init = true)
    (hproj : reducerState init P = some proj)
    (hrun : resetScoped groups env state init P = some (effs, ns)) :
    ns = deepMerge [deepCloneJ state, proj]
    ∧ ((∀ p ∈ P, (jpGet init (splitDots p)).isSome = true) →
        ∀ p ∈ P, isPlainObject (getPath init (splitDots p)) = false →
          getPath ns (splitDots p) = getPath init (splitDots p))
    ∧ (∀ sk, state = vObj sk →
        ∀ q0 : String, (∀ p ∈ P, (splitDots p).head? ≠ some q0) →
          ∀ qr : List String, getPath ns (q0 :: qr) = getPath state (q0 :: qr)) := by
  obtain ⟨pk, hpk⟩ := reducer_obj P [] init proj hproj
  subst hpk
  have hwfproj : wfJ (vObj pk) = true :=
    reducer_fold_wf P (vObj []) init (vObj pk) rfl hwfI hproj
  have hw : nodupKeys pk = true ∧ wfEntries pk = true := by
    simpa [wfJ, Bool.and_eq_true] using hwfproj
  simp only [resetScoped, hproj] at hrun
  split at hrun
  next => exact absurd hrun (by simp)
  next env2 effs2 heq =>
    simp only [Option.some.injEq, Prod.mk.injEq] at hrun
    obtain ⟨heffs, hns⟩ := hrun
    rw [deepCloneJ_id state] at hns
    have habs := deepMerge_absorb state pk hw.1 hw.2
    have hns2 : ns = deepMerge [state, vObj pk] := by rw [← hns, habs]
    refine ⟨?_, ?_, ?_⟩
    · rw [deepCloneJ_id state]
      exact hns2
    · intro hres p hp hnp
      obtain ⟨w, hwjp⟩ := Option.isSome_iff_exists.mp (hres p hp)
      cases hsp : splitDots p with
      | nil => exact absurd hsp (splitDots_ne_nil p)
      | cons k r =>
        rw [hsp] at hwjp
        obtain ⟨ik, u, hik, _, _⟩ := jpGet_some_obj hwjp
        subst hik
        have hpart : Part (vObj []) (vObj ik) :=
          part_obj_of_point (fun k2 v2 hg => by simp [getKey] at hg)
        obtain ⟨T, hT, _, _, hpaths⟩ :=
          reducer_fold P (vObj []) (vObj ik) hpart hres
        have hTeq : T = vObj pk := by
          have h2 : some T = some (vObj pk) := by
            rw [← hT]
            exact hproj
          simpa using h2
        have hjpk : jpGet (vObj pk) (k :: r) = some w := by
          have h2 := hpaths p hp
          rw [hsp, hTeq] at h2
          exact h2.trans hwjp
        have hpkne : pk ≠ [] := by
          intro hc
          rw [hc, jpGet_obj_cons] at hjpk
          simp [getKey] at hjpk
        rw [hsp] at hnp
        rw [jpGet_getPath (k :: r) (vObj ik) w hwjp] at hnp ⊢
        rw [hns2]
        show getPath (vObj (mergeVal (mergeVal [] state) (vObj pk))) (k :: r) = w
        rw [mergeVal_obj_ne _ hpkne]
        exact getPath_mergeEntries_dom (k :: r) pk (mergeVal [] state) w
          (nrE_of_wf pk hw.1 hw.2) hjpk hnp (by simp)
    · intro sk hsk q0 hq qr
      subst hsk
      have hnk : hasKey pk q0 = false := by
        cases hc : hasKey pk q0 with
        | false => rfl
        | true =>
          rcases reducer_obj_top P [] init pk hproj q0 hc with h1 | ⟨p, hp2, hh⟩
          · exact absurd h1 (by simp [hasKey])
          · exact absurd hh (hq p hp2)
      have hgk : getKey (mergeVal sk (vObj pk)) q0 = getKey sk q0 := by
        unfold mergeVal
        split
        · rfl
        · show getKey (mergeEntries sk pk) q0 = getKey sk q0
          exact getKey_mergeEntries_untouched pk sk q0 hnk
      rw [hns2]
      show getPath (vObj (mergeVal (mergeVal [] (vObj sk)) (vObj pk))) (q0 :: qr) =
        getPath (vObj sk) (q0 :: qr)
      rw [mergeVal_nil_obj sk hwfS]
      rw [getPath_cons, getPath_cons]
      simp only [truthy, if_true]
      show getPath ((getKey (mergeVal sk (vObj pk)) q0).getD vUndef) qr =
        getPath ((getKey sk q0).getD vUndef) qr
      rw [hgk]

theorem C2_witness :
    vObj [("a", vNum 1), ("c", vNum 9)] =
      deepMerge [deepCloneJ (vObj [("a", vNum 5), ("c", vNum 9)]), vObj [("a", vNum 1)]]
    ∧ getPath (vObj [("a", vNum 1), ("c", vNum 9)]) (splitDots "a")
        = getPath (vObj [("a", vNum 1), ("c", vNum 2)]) (splitDots "a")
    ∧ getPath (vObj [("a", vNum 1), ("c", vNum 9)]) ["c"]
        = getPath (vObj [("a", vNum 5), ("c", vNum 9)]) ["c"] := by
  have hm1 : deepMerge [vObj [("a", vNum 5), ("c", vNum 9)], vObj [("a", vNum 1)]]
      = vObj [("a", vNum 1), ("c", vNum 9)] := by
    show vObj (mergeVal (mergeVal [] (vObj [("a", vNum 5), ("c", vNum 9)]))
      (vObj [("a", vNum 1)])) = vObj [("a", vNum 1), ("c", vNum 9)]
    rw [mergeVal_nil_obj [("a", vNum 5), ("c", vNum 9)] rfl]
    simp [mergeVal, isEmptyJ, entriesJ, mergeEntries_cons, mergeEntries,
      mergeStepVal, getKey, setKey]
  have hm2 : deepMerge [vObj [("a", vNum 5), ("c", vNum 9)],
        vObj [("a", vNum 1), ("c", vNum 9)]]
      = vObj [("a", vNum 1), ("c", vNum 9)] := by
    show vObj (mergeVal (mergeVal [] (vObj [("a", vNum 5), ("c", vNum 9)]))
      (vObj [("a", vNum 1), ("c", vNum 9)])) = vObj [("a", vNum 1), ("c", vNum 9)]
    rw [mergeVal_nil_obj [("a", vNum 5), ("c", vNum 9)] rfl]
    simp [mergeVal, isEmptyJ, entriesJ, mergeEntries_cons, mergeEntries,
      mergeStepVal, getKey, setKey]
  have hred : reducerState (vObj [("a", vNum 1), ("c", vNum 2)]) ["a"]
      = some (vObj [("a", vNum 1)]) := rfl
  have hrun : resetScoped [] [] (vObj [("a", vNum 5), ("c", vNum 9)])
      (vObj [("a", vNum 1), ("c", vNum 2)]) ["a"]
      = some ([], vObj [("a", vNum 1), ("c", vNum 9)]) := by
    simp only [resetScoped, hred, deepCloneJ_id, hm1, hm2]
    rfl
  refine ⟨?_, ?_, ?_⟩
  · exact (C2_scoped_reset [] [] (vObj [("a", vNum 5), ("c", vNum 9)])
      (vObj [("a", vNum 1), ("c", vNum 2)]) ["a"] (vObj [("a", vNum 1)]) []
      (vObj [("a", vNum 1), ("c", vNum 9)]) rfl rfl hred hrun).1
  · exact (C2_scoped_reset [] [] (vObj [("a", vNum 5), ("c", vNum 9)])
      (vObj [("a", vNum 1), ("c", vNum 2)]) ["a"] (vObj [("a", vNum 1)]) []
      (vObj [("a", vNum 1), ("c", vNum 9)]) rfl rfl hred hrun).2.1
      (by intro p hp; simp at hp; subst hp; rfl) "a" (by simp) rfl
  · exact (C2_scoped_reset [] [] (vObj [("a", vNum 5), ("c", vNum 9)])
      (vObj [("a", vNum 1), ("c", vNum 2)]) ["a"] (vObj [("a", vNum 1)]) []
      (vObj [("a", vNum 1), ("c", vNum 9)]) rfl rfl hred hrun).2.2
      [("a", vNum 5), ("c", vNum 9)] rfl "c"
      (by intro p hp; simp at hp; subst hp; decide) []

end VP

namespace VP

/-! ### Claim C3 -/

/-- The shared-subobject input: the object with identity 1 appears under
both fields `a` and `b` of the root. -/
def diamondL : LVal :=
  LVal.lnode 0 (LObj.lobj [("a", LVal.lnode 1 (LObj.lobj [("v", LVal.lprim 1)])), ("b", LVal.lnode 1 (LObj.lobj [("v", LVal.lprim 1)]))])

/-- C3 counterexample: `deepClone`'s WeakMap guard returns the original
subterm (`return target`) on the second encounter of an already-visited
object, so an input in which one object (identity 1) appears under two
fields gets a clone that still contains identity 1: the clone shares a
mutable nested container with the input. -/
theorem C3_cx :
    (1 : Nat) ∈ idsV (cloneV diamondL 2 []).1
    ∧ (1 : Nat) ∈ idsV diamondL := by
  constructor <;> decide

/-- C3 (as amended): when the input's object identities are pairwise
distinct — the value is a pure tree with no internal aliasing, the only
shape the plugin ever clones — `deepClone` allocates exclusively fresh
identities, so the clone shares no mutable nested container with the
input.  With aliasing the guarantee fails (see the counterexample). -/
theorem C3_clone_no_sharing (t : LVal) (c : Nat)
    (hnd : (idsV t).Nodup) (hb : ∀ i ∈ idsV t, i < c) :
    ∀ j ∈ idsV (cloneV t c []).1, j ∉ idsV t := by
  intro j hj hjt
  have h := cloneV_fresh t c [] hnd (fun i _ => List.not_mem_nil i) hb
  exact absurd (hb j hjt) (not_lt.mpr (h.1 j hj))

theorem C3_witness :
    (1 : Nat) ∉ idsV (LVal.lnode 0 (LObj.lobj [("v", LVal.lprim 1)])) :=
  C3_clone_no_sharing (LVal.lnode 0 (LObj.lobj [("v", LVal.lprim 1)])) 1
    (by decide) (by decide) 1 (by decide)

/-! ### Claim C8 -/

/-- C8 counterexample: a path appearing both as a bare string and inside
an explicit override group ends up in two normalized groups' path lists,
not exactly one: the bare occurrence goes to the implicit group and the
override occurrence to its own group. -/
theorem C8_cx :
    namedIn [PEntry.pstr "count", PEntry.pgrp ["count"]] "count"
    ∧ (normPaths [PEntry.pstr "count", PEntry.pgrp ["count"]]).countP
        (fun l => decide ("count" ∈ l)) = 2 :=
  ⟨Or.inl (by simp), rfl⟩

/-- C8 (as amended): for a configuration in which a named path is not
both bare and inside an explicit group, and no two explicit groups share
it, every named path ends up in exactly one normalized group's path
list — its explicit group's, or the deduplicated implicit group pushed
last. -/
theorem C8_partition (es : List PEntry) (s : String)
    (hnamed : namedIn es s)
    (hone : grpCount es s ≤ 1)
    (hsep : PEntry.pstr s ∈ es → grpCount es s = 0) :
    (normPaths es).countP (fun l => decide (s ∈ l)) = 1 := by
  simp only [normPaths, List.countP_append, collectGroups_fst, List.nil_append]
  rw [countP_explGroups]
  have hbare : (s ∈ (collectGroups es [] []).2) ↔ PEntry.pstr s ∈ es := by
    rw [collectGroups_snd_mem]
    simp
  by_cases hb : PEntry.pstr s ∈ es
  · have h1 : List.countP (fun l => decide (s ∈ l)) [(collectGroups es [] []).2]
        = 1 := by
      simp [List.countP_cons, hbare.mpr hb]
    rw [h1, hsep hb]
  · have h0 : List.countP (fun l => decide (s ∈ l)) [(collectGroups es [] []).2]
        = 0 := by
      have hnb : ¬ (s ∈ (collectGroups es [] []).2) := fun hc => hb (hbare.mp hc)
      simp [List.countP_cons, hnb]
    rw [h0]
    rcases hnamed with h | ⟨g, hg, hsg⟩
    · exact absurd h hb
    · have hpos : 0 < grpCount es s := by
        simp only [grpCount]
        exact List.countP_pos.mpr ⟨PEntry.pgrp g, hg, by simpa using hsg⟩
      omega

theorem C8_witness :
    (normPaths [PEntry.pstr "count"]).countP (fun l => decide ("count" ∈ l)) = 1 :=
  C8_partition [PEntry.pstr "count"] "count" (Or.inl (by simp)) (by decide)
    (fun _ => rfl)

end VP
